import Mathlib

/-!
# Users ingestion backend (`backend/users`, `backend/mongodb`, `backend/main.go`)

A shallow embedding of the Go backend.  External collaborators (the MongoDB
driver, bcrypt, the JSON decoder, the file system) are outcome oracles
collected in `Env`; the goroutines of `AddUsersHandler` and `addUsersToDB`
are transition systems whose actions are chosen by an arbitrary schedule.
-/

set_option autoImplicit false

/-! ## Values -/

/-- Go `error` value that is not nil, identified by its message. -/
structure GoErr where
  msg : String
deriving DecidableEq

/-- Go `error` interface value: `none` is `nil`. -/
abbrev GoError := Option GoErr

/-- Go `float64`, kept as its bit pattern: the code only copies these values. -/
structure Float64 where
  bits : Nat
deriving DecidableEq

/-- Element type of `Users.Friends`. -/
structure Friend where
  ID : Int
  Name : String
deriving DecidableEq

/-- The `Users` struct of `users.go`. -/
structure Users where
  ID : String
  IsActive : Bool
  Name : String
  Age : Int
  Address : String
  Gender : String
  Company : String
  Email : String
  Balance : String
  Password : String
  About : String
  Registered : String
  Latitude : Float64
  Longitude : Float64
  Tags : List String
  Friends : List Friend
  Data : String
deriving DecidableEq

/-- Driver type `primitive.ObjectID`: the bytes of a store-generated identifier. -/
structure ObjectID where
  bytes : List (Fin 256)
deriving DecidableEq

/-- One lower-case hexadecimal digit. -/
def hexDigit (n : Nat) : Char :=
  match n % 16 with
  | 0 => '0' | 1 => '1' | 2 => '2' | 3 => '3' | 4 => '4' | 5 => '5' | 6 => '6' | 7 => '7'
  | 8 => '8' | 9 => '9' | 10 => 'a' | 11 => 'b' | 12 => 'c' | 13 => 'd' | 14 => 'e' | _ => 'f'

/-- Two hexadecimal digits of one byte, high nibble first. -/
def hexByte (b : Fin 256) : List Char := [hexDigit (b.val / 16), hexDigit (b.val % 16)]

/-- Method `ObjectID.Hex()`: the hexadecimal encoding of the identifier bytes. -/
def ObjectID.Hex (id : ObjectID) : String := String.mk (id.bytes.flatMap hexByte)

/-- A document of collection `dataimpact.users`.  `InsertOne` stores the struct
under the driver's default keys (the lower-cased field names, so `Users.ID` is
key `id`) and adds the generated key `_id`, kept here as `oid`. -/
structure Doc where
  oid : ObjectID
  user : Users
deriving DecidableEq

/-- Persistent state outside the process: the collection in insertion order and
the history of the `ioutil.WriteFile` calls that left a file, as (path, content
left), oldest first.  A call that succeeds leaves its data; a call that fails
after it created or truncated the file leaves what it had written by then. -/
structure World where
  docs : List Doc
  writes : List (String × String)
deriving DecidableEq

/-- Content of the file at path `p` after the given write history: what the last
call on `p` left (`WriteFile` creates or truncates). -/
def lastWrite (p : String) : List (String × String) → Option String
  | [] => none
  | e :: rest =>
    match lastWrite p rest with
    | some c => some c
    | none => if e.1 = p then some e.2 else none

/-- File content visible at path `p`. -/
def World.readFile (w : World) (p : String) : Option String := lastWrite p w.writes

/-- Driver type `*mongo.Client`. -/
structure Client where
  uri : String
deriving DecidableEq

/-- Package-level variables of `mongodb.go`: `once` and `mongoClient`. -/
structure Globals where
  onceDone : Bool
  mongoClient : Option Client
deriving DecidableEq

/-- How a computation of the process ends: it returns, the process terminates
(`os.Exit`, `log.Fatal`), or it panics. -/
inductive Proc (α : Type) where
  | ret (a : α)
  | exit (code : Int)
  | panic
deriving DecidableEq

/-- An uploaded `*multipart.FileHeader`, as the outcomes of `nf.Open()` and of
`ioutil.ReadAll(f)` on the opened file. -/
structure FileHeader where
  Open : GoError
  ReadAll : Except GoErr String

/-- Outcomes of the external calls during one request.  Calls made by the
goroutine of index `i` take `i`, so that every call has its own outcome
(bcrypt salts are random, identifiers are generated per insert).
`WriteFileResidue` is what a failing `ioutil.WriteFile` call leaves at its path:
`none` when it fails before the file is created or truncated (the open fails),
`some c` when it opened the file with `O_CREATE|O_TRUNC` and failed later, the
file then holding `c` (empty or partial). -/
structure Env where
  Connect : GoError
  Ping : GoError
  Unmarshal : String → Except GoErr (List Users)
  GenerateFromPassword : Nat → String → Except GoErr String
  InsertOne : Nat → Users → Except GoErr ObjectID
  WriteFile : Nat → String → String → GoError
  WriteFileResidue : Nat → String → String → Option String
  DeleteOne : GoError
  FindOne : GoError
  Find : GoError
  CursorErr : GoError
  Decode : Doc → GoError

/-- JSON body of a response. -/
inductive Body where
  | error (msg : String)
  | success (msg : String)
  | user (u : Users)
  | users (us : List Users)
  | version (n : Nat)
deriving DecidableEq

/-- What a handler writes with `c.JSON`. -/
structure Response where
  status : Nat
  body : Body
deriving DecidableEq

/-- Response `c.JSON(http.StatusBadRequest, gin.H{"error": http.StatusText(http.StatusBadRequest)})`. -/
def badRequest : Response := ⟨400, .error "Bad Request"⟩

/-- Response with `http.StatusInternalServerError` and its status text. -/
def internalServerError : Response := ⟨500, .error "Internal Server Error"⟩

/-- Response `c.JSON(http.StatusOK, gin.H{"success": "User(s) added"})`. -/
def usersAdded : Response := ⟨200, .success "User(s) added"⟩

/-- The driver error `mongo.ErrNoDocuments`. -/
def ErrNoDocuments : GoErr := ⟨"mongo: no documents in result"⟩

/-! ## `mongodb.go` and `main.go` -/

/-- Function `GetMongoDBClient`: connect once, then ping.  Both failures go
through `log.Fatal`, which ends the process with status 1; the `return` that
follows `log.Fatal` is never reached. -/
def GetMongoDBClient (env : Env) (g : Globals) : Proc (Globals × Client × GoError) :=
  let afterOnce : Proc Globals :=
    if g.onceDone then .ret g
    else
      match env.Connect with
      | some _ => .exit 1
      | none => .ret { onceDone := true, mongoClient := some ⟨"mongodb://localhost:27017"⟩ }
  match afterOnce with
  | .exit c => .exit c
  | .panic => .panic
  | .ret g1 =>
    match g1.mongoClient with
    | none => .panic
    | some client =>
      match env.Ping with
      | some _ => .exit 1
      | none => .ret (g1, client, none)

/-- Function `init` of `main.go`: the start-up connectivity check. -/
def main.init (env : Env) (g : Globals) : Proc Globals :=
  match GetMongoDBClient env g with
  | .exit c => .exit c
  | .panic => .panic
  | .ret (g1, _, err) => if err.isSome then .exit (-1) else .ret g1

/-! ## Point handlers of `users.go` -/

/-- Driver call `collection.FindOne(ctx, bson.M{"id": id}).Decode(&result)`: the
first document whose key `id` (field `Users.ID`) equals the parameter. -/
def FindOne (env : Env) (w : World) (id : String) : Except GoErr Users :=
  match env.FindOne with
  | some e => .error e
  | none =>
    match w.docs.find? (fun d => d.user.ID == id) with
    | none => .error ErrNoDocuments
    | some d =>
      match env.Decode d with
      | some e => .error e
      | none => .ok d.user

/-- Driver call `collection.DeleteOne(ctx, bson.M{"id": id})`: removes the first
matching document, if any, and reports how many were removed. -/
def DeleteOne (env : Env) (w : World) (id : String) : Except GoErr (World × Nat) :=
  match env.DeleteOne with
  | some e => .error e
  | none =>
    .ok ({ w with docs := w.docs.eraseP (fun d => d.user.ID == id) },
         if w.docs.any (fun d => d.user.ID == id) then 1 else 0)

/-- Handler `GetUsersHandler`, with `id` the path parameter. -/
def GetUsersHandler (env : Env) (g : Globals) (w : World) (id : String) : Proc Response :=
  match GetMongoDBClient env g with
  | .exit c => .exit c
  | .panic => .panic
  | .ret (_, _, some _) => .ret badRequest
  | .ret (_, _, none) =>
    match FindOne env w id with
    | .error _ => .ret ⟨400, .error "User not found"⟩
    | .ok result => .ret ⟨200, .user result⟩

/-- Handler `DeleteUserHandler`, with `id` the path parameter; also gives the
world it leaves behind. -/
def DeleteUserHandler (env : Env) (g : Globals) (w : World) (id : String) :
    Proc (Response × World) :=
  match GetMongoDBClient env g with
  | .exit c => .exit c
  | .panic => .panic
  | .ret (_, _, some _) => .ret (badRequest, w)
  | .ret (_, _, none) =>
    match DeleteOne env w id with
    | .error _ => .ret (badRequest, w)
    | .ok (w1, _) => .ret (⟨200, .success "deleted"⟩, w1)

/-- The loop `for cur.Next(ctx)` of `GetUsersListHandler` over the documents the
cursor yields: stops with an error at the first document that fails to decode. -/
def decodeAll (env : Env) : List Doc → Except GoErr (List Users)
  | [] => .ok []
  | d :: rest =>
    match env.Decode d with
    | some e => .error e
    | none =>
      match decodeAll env rest with
      | .error e => .error e
      | .ok us => .ok (d.user :: us)

/-- Handler `GetUsersListHandler`. -/
def GetUsersListHandler (env : Env) (g : Globals) (w : World) : Proc Response :=
  match GetMongoDBClient env g with
  | .exit c => .exit c
  | .panic => .panic
  | .ret (_, _, some _) => .ret badRequest
  | .ret (_, _, none) =>
    match env.Find with
    | some _ => .ret badRequest
    | none =>
      match decodeAll env w.docs with
      | .error _ => .ret badRequest
      | .ok results =>
        match env.CursorErr with
        | some _ => .ret badRequest
        | none => .ret ⟨200, .users results⟩

/-- Handler `UpdateUserHandler`. -/
def UpdateUserHandler : Proc Response := .ret ⟨200, .version 5⟩

/-! ## Goroutine bookkeeping -/

/-- Pointwise update of a goroutine table. -/
def upd {α : Type} (f : Nat → α) (i : Nat) (v : α) : Nat → α :=
  fun j => if j = i then v else f j

/-- Sum of `f 0, ..., f (n-1)`. -/
def sumTo (f : Nat → Nat) : Nat → Nat
  | 0 => 0
  | n + 1 => sumTo f n + f n

/-- The goroutine `go func() { wg.Wait(); close(done) }()`. -/
inductive WaiterPC where
  | absent
  | waiting
  | closing
  | exited
deriving DecidableEq

/-- Steps the waiter goroutine still has to take. -/
def WaiterPC.weight : WaiterPC → Nat
  | .waiting => 2
  | .closing => 1
  | _ => 0

/-- How a call stops without returning. -/
inductive Halt where
  | exit (code : Int)
  | panic
deriving DecidableEq

/-! ## `addUsersToDB`: one worker goroutine per record -/

namespace addUsersToDB

/-- Program counter of a worker `go func(u Users)`, with its local `u`. -/
inductive WorkerPC where
  | hashing (u : Users)
  | inserting (u : Users)
  | writing (u : Users) (name : String)
  | sending (err : GoError)
  | deferred
  | exited
deriving DecidableEq

/-- Steps a worker still has to take (the send on `errc` counts as one). -/
def WorkerPC.weight : WorkerPC → Nat
  | .hashing _ => 5
  | .inserting _ => 4
  | .writing _ _ => 3
  | .sending _ => 2
  | .deferred => 1
  | .exited => 0

/-- Where the calling goroutine is: at the `select`, returned, or stopped
inside `GetMongoDBClient`. -/
inductive MainPC where
  | select
  | returned (err : GoError)
  | halted (h : Halt)
deriving DecidableEq

/-- State of one call of `addUsersToDB`.  `inserts`, `wrote` and `touched` are
history variables (indices of the workers whose insert succeeded, whose file
write succeeded, resp. whose `WriteFile` call left a file, in order); no step
reads them. -/
structure State where
  launched : Nat
  pc : Nat → WorkerPC
  wg : Int
  waiter : WaiterPC
  done : Bool
  main : MainPC
  world : World
  inserts : List Nat
  wrote : List Nat
  touched : List Nat

/-- Scheduler choices: run worker `i`, run the waiter, let the `select` take
`<-done`, or let it receive the error worker `i` is sending on `errc`. -/
inductive Action where
  | worker (i : Nat)
  | waiter
  | recvDone
  | recvErr (i : Nat)
deriving DecidableEq

/-- State in which the call has stopped before launching any goroutine. -/
def stopped (users : List Users) (w : World) (m : MainPC) : State :=
  { launched := 0, pc := fun _ => .exited, wg := users.length, waiter := .absent,
    done := false, main := m, world := w, inserts := [], wrote := [], touched := [] }

/-- The loop `for _, user := range *users { go func(u Users) {...}(user) }`: worker
`i` starts with its own copy of record `i`. -/
def launch (users : List Users) : Nat → WorkerPC :=
  fun i =>
    match users[i]? with
    | some u => .hashing u
    | none => .exited

/-- State after `wg.Add`, the client check and the launch of all goroutines. -/
def init (env : Env) (g : Globals) (users : List Users) (w : World) : State :=
  match GetMongoDBClient env g with
  | .exit c => stopped users w (.halted (.exit c))
  | .panic => stopped users w (.halted .panic)
  | .ret (_, _, some err) => stopped users w (.returned (some err))
  | .ret (_, _, none) =>
    { launched := users.length, pc := launch users, wg := users.length, waiter := .waiting,
      done := false, main := .select, world := w, inserts := [], wrote := [], touched := [] }

/-- One scheduler choice; a choice that is not enabled leaves the state as it is. -/
def step (env : Env) (s : State) : Action → State
  | .worker i =>
    match s.pc i with
    | .hashing u =>
      match env.GenerateFromPassword i u.Password with
      | .error e => { s with pc := upd s.pc i (.sending (some e)) }
      | .ok hash => { s with pc := upd s.pc i (.inserting { u with Password := hash }) }
    | .inserting u =>
      match env.InsertOne i u with
      | .error e => { s with pc := upd s.pc i (.sending (some e)) }
      | .ok id =>
        { s with pc := upd s.pc i (.writing u id.Hex),
                 world := { s.world with docs := s.world.docs ++ [⟨id, u⟩] },
                 inserts := s.inserts ++ [i] }
    | .writing u name =>
      match env.WriteFile i ("./data/" ++ name) u.Data with
      | some e =>
        match env.WriteFileResidue i ("./data/" ++ name) u.Data with
        | none => { s with pc := upd s.pc i (.sending (some e)) }
        | some c =>
          { s with pc := upd s.pc i (.sending (some e)),
                   world := { s.world with writes := s.world.writes ++ [("./data/" ++ name, c)] },
                   touched := s.touched ++ [i] }
      | none =>
        { s with pc := upd s.pc i .deferred,
                 world := { s.world with writes := s.world.writes ++ [("./data/" ++ name, u.Data)] },
                 wrote := s.wrote ++ [i], touched := s.touched ++ [i] }
    | .sending _ => s
    | .deferred => { s with pc := upd s.pc i .exited, wg := s.wg - 1 }
    | .exited => s
  | .waiter =>
    match s.waiter with
    | .waiting => if s.wg = 0 then { s with waiter := .closing } else s
    | .closing => { s with waiter := .exited, done := true }
    | _ => s
  | .recvDone =>
    match s.main with
    | .select => if s.done then { s with main := .returned none } else s
    | _ => s
  | .recvErr i =>
    match s.main with
    | .select =>
      match s.pc i with
      | .sending err =>
        { s with pc := upd s.pc i .deferred,
                 main := if err.isSome then .returned err else .returned none }
      | _ => s
    | _ => s

/-- Whether a scheduler choice can be taken. -/
def enabled (s : State) : Action → Bool
  | .worker i =>
    match s.pc i with
    | .hashing _ => true
    | .inserting _ => true
    | .writing _ _ => true
    | .deferred => true
    | _ => false
  | .waiter =>
    match s.waiter with
    | .waiting => s.wg == 0
    | .closing => true
    | _ => false
  | .recvDone =>
    match s.main with
    | .select => s.done
    | _ => false
  | .recvErr i =>
    match s.main, s.pc i with
    | .select, .sending _ => true
    | _, _ => false

/-- No goroutine of the call can move any more. -/
def quiescent (s : State) : Bool :=
  (List.range s.launched).all (fun i => !enabled s (.worker i) && !enabled s (.recvErr i))
    && !enabled s .waiter && !enabled s .recvDone

/-- Run a schedule. -/
def exec (env : Env) (s : State) (sched : List Action) : State := sched.foldl (step env) s

/-- Bound on the number of steps still possible. -/
def measure (s : State) : Nat :=
  sumTo (fun i => (s.pc i).weight) s.launched + s.waiter.weight
    + (match s.main with | .select => 1 | _ => 0)

/-- First failure of worker `i` on record `u`, if any step of it fails. -/
def workerErr (env : Env) (i : Nat) (u : Users) : GoError :=
  match env.GenerateFromPassword i u.Password with
  | .error e => some e
  | .ok hash =>
    match env.InsertOne i { u with Password := hash } with
    | .error e => some e
    | .ok id => env.WriteFile i ("./data/" ++ id.Hex) u.Data

/-- The document worker `i` inserts for record `u`, when hashing and insert succeed. -/
def docOf (env : Env) (i : Nat) (u : Users) : Option Doc :=
  match env.GenerateFromPassword i u.Password with
  | .error _ => none
  | .ok hash =>
    match env.InsertOne i { u with Password := hash } with
    | .error _ => none
    | .ok id => some ⟨id, { u with Password := hash }⟩

/-- Path of the payload file of worker `i` for record `u`. -/
def pathOf (env : Env) (i : Nat) (u : Users) : Option String :=
  (docOf env i u).map (fun d => "./data/" ++ d.oid.Hex)

end addUsersToDB

/-! ## `AddUsersHandler`: one decoder goroutine per uploaded file -/

namespace AddUsersHandler

/-- Body of the per-file goroutine up to its channel send: `nf.Open()`,
`ioutil.ReadAll(f)`, `json.Unmarshal(data, &u)`. -/
def decodeFile (env : Env) (nf : FileHeader) : Except GoErr (List Users) :=
  match nf.Open with
  | some e => .error e
  | none =>
    match nf.ReadAll with
    | .error e => .error e
    | .ok data => env.Unmarshal data

/-- Program counter of a per-file goroutine `go func(nf *multipart.FileHeader)`. -/
inductive FilePC where
  | running (nf : FileHeader)
  | sendQueue (u : List Users)
  | sendErr (err : GoError)
  | exited

/-- Steps a per-file goroutine and the aggregator still spend on its result. -/
def FilePC.weight : FilePC → Nat
  | .running _ => 6
  | .sendQueue _ => 5
  | .sendErr _ => 1
  | .exited => 0

/-- Program counter of the aggregator `go func() { for u := range queue {...} }()`. -/
inductive AggPC where
  | receiving
  | appending (u : List Users)
  | done
  | exited
deriving DecidableEq

/-- Steps the aggregator still has to take for what it holds. -/
def AggPC.weight : AggPC → Nat
  | .receiving => 1
  | .appending _ => 3
  | .done => 2
  | .exited => 0

/-- Number of received slices for which the aggregator has not yet called `wg.Done`. -/
def AggPC.holding : AggPC → Nat
  | .appending _ => 1
  | .done => 1
  | _ => 0

/-- Records the aggregator has received and not yet appended to `users`. -/
def AggPC.pending : AggPC → List Users
  | .appending u => u
  | _ => []

/-- Where the handler goroutine is: at the `select`, inside `addUsersToDB`,
returned with a response, or gone with the process (`log.Fatal`). -/
inductive MainPC where
  | select
  | inDB
  | returned (r : Response)
  | exited (code : Int)
deriving DecidableEq

/-- A call `addUsersToDB(&users)`: the slice it was given and the state of the call. -/
structure Call where
  users : List Users
  state : addUsersToDB.State

/-- State of one request.  `delivered` is a history variable (indices of the
files whose send on `queue` has completed, in order); no step reads it. -/
structure State where
  launched : Nat
  pc : Nat → FilePC
  queue : List (List Users)
  queueClosed : Bool
  agg : AggPC
  users : List Users
  wg : Int
  waiter : WaiterPC
  done : Bool
  main : MainPC
  call : Option Call
  delivered : List Nat

/-- Scheduler choices: run file goroutine `i`, the aggregator or the waiter; let
the `select` take `<-done` or receive the error file goroutine `i` is sending;
run a goroutine of the `addUsersToDB` call; let the handler respond once
`addUsersToDB` is over. -/
inductive Action where
  | file (i : Nat)
  | aggregator
  | waiter
  | recvDone
  | recvErr (i : Nat)
  | db (a : addUsersToDB.Action)
  | finish
deriving DecidableEq

/-- The loop `for _, file := range files { go func(nf) {...}(file) }`. -/
def launch (files : List FileHeader) : Nat → FilePC :=
  fun i =>
    match files[i]? with
    | some nf => .running nf
    | none => .exited

/-- State after `c.MultipartForm()` and the launch of all goroutines. -/
def init (form : Except GoErr (List FileHeader)) : State :=
  match form with
  | .error _ =>
    { launched := 0, pc := fun _ => .exited, queue := [], queueClosed := false, agg := .exited,
      users := [], wg := 0, waiter := .absent, done := false,
      main := .returned internalServerError, call := none, delivered := [] }
  | .ok files =>
    { launched := files.length, pc := launch files, queue := [], queueClosed := false,
      agg := .receiving, users := [], wg := files.length, waiter := .waiting, done := false,
      main := .select, call := none, delivered := [] }

/-- The call `addUsersToDB(&users)` made by the handler goroutine. -/
def callDB (env : Env) (g : Globals) (w0 : World) (s : State) : State :=
  { s with main := .inDB, call := some ⟨s.users, addUsersToDB.init env g s.users w0⟩ }

/-- One scheduler choice while the process is alive; a choice that is not
enabled leaves the state as it is. -/
def stepLive (env : Env) (g : Globals) (w0 : World) (s : State) : Action → State
  | .file i =>
    match s.pc i with
    | .running nf =>
      match decodeFile env nf with
      | .error e => { s with pc := upd s.pc i (.sendErr (some e)) }
      | .ok u => { s with pc := upd s.pc i (.sendQueue u) }
    | .sendQueue u =>
      if s.queue.length < 1 then
        { s with pc := upd s.pc i .exited, queue := s.queue ++ [u],
                 delivered := s.delivered ++ [i] }
      else s
    | _ => s
  | .aggregator =>
    match s.agg with
    | .receiving =>
      match s.queue with
      | u :: rest => { s with queue := rest, agg := .appending u }
      | [] => if s.queueClosed then { s with agg := .exited } else s
    | .appending u => { s with users := s.users ++ u, agg := .done }
    | .done => { s with wg := s.wg - 1, agg := .receiving }
    | .exited => s
  | .waiter =>
    match s.waiter with
    | .waiting => if s.wg = 0 then { s with waiter := .closing } else s
    | .closing => { s with waiter := .exited, done := true }
    | _ => s
  | .recvDone =>
    match s.main with
    | .select => if s.done then callDB env g w0 s else s
    | _ => s
  | .recvErr i =>
    match s.main with
    | .select =>
      match s.pc i with
      | .sendErr err =>
        if err.isSome then
          { s with pc := upd s.pc i .exited, main := .returned badRequest }
        else callDB env g w0 { s with pc := upd s.pc i .exited }
      | _ => s
    | _ => s
  | .db b =>
    match s.call with
    | some c => { s with call := some { c with state := addUsersToDB.step env c.state b } }
    | none => s
  | .finish =>
    match s.main, s.call with
    | .inDB, some c =>
      match c.state.main with
      | .returned err =>
        if err.isSome then { s with main := .returned badRequest }
        else { s with main := .returned usersAdded }
      | .halted (.exit code) => { s with main := .exited code }
      | .halted .panic => { s with main := .returned internalServerError }
      | .select => s
    | _, _ => s

/-- One scheduler choice: nothing moves once the process has exited. -/
def step (env : Env) (g : Globals) (w0 : World) (s : State) (a : Action) : State :=
  match s.main with
  | .exited _ => s
  | _ => stepLive env g w0 s a

/-- Whether a scheduler choice can be taken while the process is alive. -/
def enabledLive (s : State) : Action → Bool
  | .file i =>
    match s.pc i with
    | .running _ => true
    | .sendQueue _ => s.queue.length < 1
    | _ => false
  | .aggregator =>
    match s.agg with
    | .receiving => !s.queue.isEmpty || s.queueClosed
    | .appending _ => true
    | .done => true
    | .exited => false
  | .waiter =>
    match s.waiter with
    | .waiting => s.wg == 0
    | .closing => true
    | _ => false
  | .recvDone =>
    match s.main with
    | .select => s.done
    | _ => false
  | .recvErr i =>
    match s.main, s.pc i with
    | .select, .sendErr _ => true
    | _, _ => false
  | .db b =>
    match s.call with
    | some c => addUsersToDB.enabled c.state b
    | none => false
  | .finish =>
    match s.main, s.call with
    | .inDB, some c =>
      match c.state.main with
      | .select => false
      | _ => true
    | _, _ => false

/-- Whether a scheduler choice can be taken. -/
def enabled (s : State) (a : Action) : Bool :=
  match s.main with
  | .exited _ => false
  | _ => enabledLive s a

/-- No goroutine of the request can move any more. -/
def quiescent (s : State) : Bool :=
  (List.range s.launched).all (fun i => !enabled s (.file i) && !enabled s (.recvErr i))
    && !enabled s .aggregator && !enabled s .waiter && !enabled s .recvDone
    && !enabled s .finish
    && (match s.main, s.call with
        | .exited _, _ => true
        | _, some c => addUsersToDB.quiescent c.state
        | _, none => true)

/-- Run a schedule. -/
def exec (env : Env) (g : Globals) (w0 : World) (s : State) (sched : List Action) : State :=
  sched.foldl (step env g w0) s

/-- Run a schedule on a request. -/
def run (env : Env) (g : Globals) (w0 : World) (form : Except GoErr (List FileHeader))
    (sched : List Action) : State :=
  exec env g w0 (init form) sched

/-- The world the request has produced so far. -/
def worldOf (w0 : World) (s : State) : World :=
  match s.call with
  | some c => c.state.world
  | none => w0

/-- First component of the termination measure: whether the handler is still
at its `select`. -/
def phase (s : State) : Nat :=
  match s.main with
  | .select => 1
  | _ => 0

/-- Second component of the termination measure: a bound on the steps still
possible in the current phase. -/
def budget (s : State) : Nat :=
  sumTo (fun i => (s.pc i).weight) s.launched + 4 * s.queue.length + s.agg.weight
    + s.waiter.weight
    + (match s.main with
        | .select => 1
        | .inDB => 1
        | _ => 0)
    + (match s.call with
        | some c => addUsersToDB.measure c.state
        | none => 0)

/-- The termination measure decreases lexicographically from `s` to `t`. -/
def decreases (t s : State) : Prop :=
  phase t < phase s ∨ (phase t = phase s ∧ budget t < budget s)

/-- Records an uploaded file decodes to (none when it fails). -/
def decoded (env : Env) (nf : FileHeader) : List Users :=
  match decodeFile env nf with
  | .ok u => u
  | .error _ => []

/-- Records file `i` decodes to (none when it fails or does not exist). -/
def recordsOf (env : Env) (files : List FileHeader) (i : Nat) : List Users :=
  match files[i]? with
  | some nf => decoded env nf
  | none => []

end AddUsersHandler

/-! ## Invariant of `addUsersToDB` -/

namespace addUsersToDB

/-- Run a schedule on a call `addUsersToDB(&users)` made in world `w0`. -/
def run (env : Env) (g : Globals) (users : List Users) (w0 : World) (sched : List Action) : State :=
  exec env (init env g users w0) sched

/-- The document inserted for record `i` of the batch, when its hashing and its
insert succeed. -/
def insertedDoc (env : Env) (users : List Users) (i : Nat) : Option Doc :=
  match users[i]? with
  | some u => docOf env i u
  | none => none

/-- The payload file (path, content) written for record `i` of the batch. -/
def writtenFile (env : Env) (users : List Users) (i : Nat) : Option (String × String) :=
  match users[i]? with
  | some u => (pathOf env i u).map (fun p => (p, u.Data))
  | none => none

/-- What the `WriteFile` call of worker `i` leaves in the file system, as (path,
content): the payload when the call succeeds, the residue when it fails after
creating the file, nothing when it fails before or is never made. -/
def leftFile (env : Env) (users : List Users) (i : Nat) : Option (String × String) :=
  match users[i]? with
  | some u =>
    match docOf env i u with
    | some d =>
      match env.WriteFile i ("./data/" ++ d.oid.Hex) u.Data with
      | none => some ("./data/" ++ d.oid.Hex, u.Data)
      | some _ =>
        (env.WriteFileResidue i ("./data/" ++ d.oid.Hex) u.Data).map
          (fun c => ("./data/" ++ d.oid.Hex, c))
    | none => none
  | none => none

/-- Whether a worker has left its three calls: it has made its `WriteFile` call
or has failed before it. -/
def WorkerPC.pastCalls : WorkerPC → Bool
  | .sending _ => true
  | .deferred => true
  | .exited => true
  | _ => false

/-- What holds of a worker that is past its three steps (`ins`, `wr`: its insert,
resp. its write, is in the history): it inserted iff hashing and insert succeed,
it wrote iff nothing fails, and if something fails the caller has received
exactly that error. -/
def Settled (env : Env) (i : Nat) (u : Users) (ins wr : Prop) (main : MainPC) : Prop :=
  (ins ↔ (docOf env i u).isSome) ∧ (wr ↔ workerErr env i u = none) ∧
    ∀ e, workerErr env i u = some e → main = .returned (some e)

/-- Invariant of worker `i`, by program counter. -/
def WorkerOK (env : Env) (users : List Users) (i : Nat) (ins wr : Prop) (main : MainPC) :
    WorkerPC → Prop
  | .hashing u => users[i]? = some u ∧ ¬ins ∧ ¬wr
  | .inserting v => ∃ u h, users[i]? = some u ∧ env.GenerateFromPassword i u.Password = .ok h ∧
      v = { u with Password := h } ∧ ¬ins ∧ ¬wr
  | .writing v name => ∃ u h id, users[i]? = some u ∧
      env.GenerateFromPassword i u.Password = .ok h ∧ v = { u with Password := h } ∧
      env.InsertOne i v = .ok id ∧ name = id.Hex ∧ ins ∧ ¬wr
  | .sending m => ∃ u e, users[i]? = some u ∧ m = some e ∧ workerErr env i u = some e ∧
      (ins ↔ (docOf env i u).isSome) ∧ ¬wr
  | .deferred => ∃ u, users[i]? = some u ∧ Settled env i u ins wr main
  | .exited => (users[i]? = none ∧ ¬ins ∧ ¬wr) ∨ ∃ u, users[i]? = some u ∧ Settled env i u ins wr main

/-- Contribution of a worker to the number of `wg.Done` calls made. -/
def WorkerPC.exitedCount : WorkerPC → Nat
  | .exited => 1
  | _ => 0

/-- Invariant of a waiter goroutine: it passes `wg.Wait()` only at counter zero,
and `done` is closed exactly when it has exited. -/
def WaiterOK (wg : Int) (done : Bool) : WaiterPC → Prop
  | .absent => False
  | .waiting => done = false
  | .closing => wg = 0 ∧ done = false
  | .exited => wg = 0 ∧ done = true

/-- Invariant of the calling goroutine: nil is returned only through `done`, an
error only if it is the failure of some worker. -/
def MainOK (env : Env) (users : List Users) (done : Bool) : MainPC → Prop
  | .select => True
  | .returned none => done = true
  | .returned (some e) => ∃ i u, users[i]? = some u ∧ workerErr env i u = some e
  | .halted _ => False

/-- Inductive invariant of a call whose client check succeeded. -/
structure Inv (env : Env) (users : List Users) (w0 : World) (s : State) : Prop where
  launched : s.launched = users.length
  workers : ∀ i, WorkerOK env users i (i ∈ s.inserts) (i ∈ s.wrote) s.main (s.pc i)
  nodupI : s.inserts.Nodup
  nodupW : s.wrote.Nodup
  docs : s.world.docs = w0.docs ++ s.inserts.filterMap (insertedDoc env users)
  writes : s.world.writes = w0.writes ++ s.touched.filterMap (leftFile env users)
  wg : s.wg = (users.length : Int) - (sumTo (fun i => (s.pc i).exitedCount) users.length : Nat)
  waiter : WaiterOK s.wg s.done s.waiter
  main : MainOK env users s.done s.main
  nodupT : s.touched.Nodup
  touchedOK : ∀ i, i ∈ s.touched ↔ ((s.pc i).pastCalls = true ∧ (leftFile env users i).isSome = true)

end addUsersToDB

/-! ## Invariant of `AddUsersHandler` -/

namespace AddUsersHandler

/-- Invariant of file goroutine `i`, by program counter (`del`: its send on
`queue` is in the history). -/
def FileOK (env : Env) (files : List FileHeader) (i : Nat) (del : Prop) (main : MainPC) :
    FilePC → Prop
  | .running nf => files[i]? = some nf ∧ ¬del
  | .sendQueue u => ∃ nf, files[i]? = some nf ∧ decodeFile env nf = .ok u ∧ ¬del
  | .sendErr m => ∃ nf e, files[i]? = some nf ∧ decodeFile env nf = .error e ∧ m = some e ∧ ¬del
  | .exited => (files[i]? = none ∧ ¬del)
      ∨ (∃ nf u, files[i]? = some nf ∧ decodeFile env nf = .ok u ∧ del)
      ∨ (∃ nf e, files[i]? = some nf ∧ decodeFile env nf = .error e ∧ ¬del
          ∧ main = .returned badRequest)

/-- Invariant of the handler goroutine: how each of its positions relates to
the `addUsersToDB` call. -/
def MainOK (env : Env) (files : List FileHeader) (call : Option Call) : MainPC → Prop
  | .select => call = none
  | .inDB => call ≠ none
  | .returned r =>
      (call = none ∧ r = badRequest
        ∧ ∃ (i : Nat) (nf : FileHeader) (e : GoErr),
            files[i]? = some nf ∧ decodeFile env nf = .error e)
      ∨ (∃ c err, call = some c ∧ c.state.main = .returned err
          ∧ r = if err.isSome then badRequest else usersAdded)
      ∨ (∃ c, call = some c ∧ c.state.main = .halted .panic ∧ r = internalServerError)
  | .exited code => ∃ c, call = some c ∧ c.state.main = .halted (.exit code)

/-- Invariant of the call: it is made only after `done` is closed, on the final
value of `users`, and its state is a run of `addUsersToDB`. -/
def CallOK (env : Env) (g : Globals) (w0 : World) (users : List Users) (done : Bool)
    (call : Option Call) : Prop :=
  ∀ c, call = some c → done = true ∧ c.users = users
    ∧ ∃ sched, c.state = addUsersToDB.run env g c.users w0 sched

/-- Inductive invariant of a request whose multipart form parsed. -/
structure HInv (env : Env) (g : Globals) (w0 : World) (files : List FileHeader) (s : State) :
    Prop where
  launched : s.launched = files.length
  filesOK : ∀ i, FileOK env files i (i ∈ s.delivered) s.main (s.pc i)
  nodup : s.delivered.Nodup
  content : s.delivered.flatMap (recordsOf env files)
    = s.users ++ s.agg.pending ++ s.queue.flatten
  count : s.wg + (s.delivered.length : Int)
    = (files.length : Int) + (s.agg.holding : Int) + (s.queue.length : Int)
  queueOpen : s.queueClosed = false
  aggOK : s.agg ≠ .exited
  waiter : addUsersToDB.WaiterOK s.wg s.done s.waiter
  mainOK : MainOK env files s.call s.main
  callOK : CallOK env g w0 s.users s.done s.call

end AddUsersHandler

/-! ## Sample requests -/

/-- Record decoded from `annJson`: the fields that are absent keep their zero value. -/
def ann : Users :=
  { ID := "", IsActive := false, Name := "Ann", Age := 30, Address := "", Gender := "",
    Company := "", Email := "", Balance := "", Password := "pw1", About := "", Registered := "",
    Latitude := ⟨0⟩, Longitude := ⟨0⟩, Tags := [], Friends := [], Data := "" }

/-- A second record, with an identifier and a payload of its own. -/
def bob : Users :=
  { ann with ID := "u2", Name := "Bob", Age := 41, Password := "pw2", Data := "bob-data" }

/-- Content of an upload holding the single record `ann`. -/
def annJson : String := "[\x7b\"name\":\"Ann\",\"age\":30,\"password\":\"pw1\"\x7d]"

/-- Content of an upload holding the single record `bob`. -/
def bobJson : String :=
  "[\x7b\"id\":\"u2\",\"name\":\"Bob\",\"age\":41,\"password\":\"pw2\",\"data\":\"bob-data\"\x7d]"

/-- Uploaded file that opens and reads as `annJson`. -/
def annFile : FileHeader := { Open := none, ReadAll := .ok annJson }

/-- Uploaded file whose content is not JSON. -/
def badFile : FileHeader := { Open := none, ReadAll := .ok "oops" }

/-- Identifier the sample store generates for the insert of worker `i`. -/
def demoId (i : Nat) : ObjectID := ⟨List.replicate 11 0 ++ [Fin.ofNat i]⟩

/-- An environment in which every external call succeeds. -/
def demoEnv : Env :=
  { Connect := none, Ping := none,
    Unmarshal := fun data =>
      if data = annJson then .ok [ann]
      else if data = bobJson then .ok [bob]
      else .error ⟨"invalid character"⟩,
    GenerateFromPassword := fun _ pw => .ok ("$2a$10$" ++ pw),
    InsertOne := fun i _ => .ok (demoId i),
    WriteFile := fun _ _ _ => none, WriteFileResidue := fun _ _ _ => none,
    DeleteOne := none, FindOne := none, Find := none, CursorErr := none,
    Decode := fun _ => none }

/-- The same environment with the store unreachable: `Ping` fails. -/
def pingDown : Env := { demoEnv with Ping := some ⟨"server selection timeout"⟩ }

/-- The same environment with a file system that refuses every write before
creating the file, so that a failed write leaves nothing. -/
def diskFull : Env := { demoEnv with WriteFile := fun _ _ _ => some ⟨"no space left on device"⟩ }

/-- Package variables after the start-up check of `main.go` has connected. -/
def connected : Globals := ⟨true, some ⟨"mongodb://localhost:27017"⟩⟩

/-- An empty collection and an empty `./data` directory. -/
def emptyWorld : World := ⟨[], []⟩

/-- A store that holds only the document of `bob`, with its payload file. -/
def bobWorld : World :=
  ⟨[⟨demoId 0, { bob with Password := "$2a$10$pw2" }⟩],
   [("./data/000000000000000000000000", "bob-data")]⟩

/-- A complete schedule of `addUsersToDB` on one record. -/
def dbSchedule : List addUsersToDB.Action :=
  [.worker 0, .worker 0, .worker 0, .worker 0, .waiter, .waiter, .recvDone]

/-- A schedule of `addUsersToDB` on one record whose worker fails and reports. -/
def dbFailSchedule : List addUsersToDB.Action :=
  [.worker 0, .worker 0, .worker 0, .recvErr 0, .worker 0]

/-- A complete schedule of a request with one uploaded file holding one record. -/
def okSchedule : List AddUsersHandler.Action :=
  [.file 0, .file 0, .aggregator, .aggregator, .aggregator, .waiter, .waiter, .recvDone,
   .db (.worker 0), .db (.worker 0), .db (.worker 0), .db (.worker 0), .db .waiter, .db .waiter,
   .db .recvDone, .finish]

/-- A complete schedule of a request whose file 1 fails to decode. -/
def errSchedule : List AddUsersHandler.Action :=
  [.file 0, .file 1, .recvErr 1, .file 0, .aggregator, .aggregator, .aggregator]

/-- A complete schedule of a request whose two files both fail to decode. -/
def twoErrSchedule : List AddUsersHandler.Action := [.file 0, .file 1, .recvErr 0]

/-! ## Proofs -/

theorem upd_same {α : Type} (f : Nat → α) (i : Nat) (v : α) : upd f i v i = v := by
  simp [upd]

theorem upd_other {α : Type} (f : Nat → α) (i j : Nat) (v : α) (h : j ≠ i) : upd f i v j = f j := by
  simp [upd, h]

theorem comp_upd {α β : Type} (g : α → β) (f : Nat → α) (i : Nat) (v : α) :
    (fun j => g (upd f i v j)) = upd (fun j => g (f j)) i (g v) := by
  funext j
  by_cases h : j = i <;> simp [upd, h]

theorem sumTo_upd_ge (f : Nat → Nat) (i n v : Nat) (h : n ≤ i) : sumTo (upd f i v) n = sumTo f n := by
  induction n with
  | zero => rfl
  | succ m ih =>
    have hm : m ≠ i := by omega
    simp [sumTo, ih (by omega), upd, hm]

theorem sumTo_upd (f : Nat → Nat) (i n v : Nat) (h : i < n) :
    sumTo (upd f i v) n + f i = sumTo f n + v := by
  induction n with
  | zero => omega
  | succ m ih =>
    by_cases hm : i = m
    · subst hm
      simp [sumTo, sumTo_upd_ge f i i v (le_refl _), upd]
      omega
    · have hm2 : m ≠ i := fun h => hm h.symm
      have := ih (by omega)
      simp [sumTo, upd, hm2]
      simp [upd] at this
      omega

theorem sumTo_le (f : Nat → Nat) (b n : Nat) (h : ∀ i, i < n → f i ≤ b) : sumTo f n ≤ b * n := by
  induction n with
  | zero => simp [sumTo]
  | succ m ih =>
    have h1 := ih (fun i hi => h i (by omega))
    have h2 := h m (by omega)
    simp [sumTo, Nat.mul_succ]
    omega

theorem sumTo_eq_max (f : Nat → Nat) (b n : Nat) (h : ∀ i, i < n → f i ≤ b)
    (hs : sumTo f n = b * n) : ∀ i, i < n → f i = b := by
  induction n with
  | zero => intro i hi; omega
  | succ m ih =>
    have h1 := sumTo_le f b m (fun i hi => h i (by omega))
    have h2 := h m (by omega)
    simp [sumTo, Nat.mul_succ] at hs
    intro i hi
    by_cases him : i = m
    · subst him; omega
    · exact ih (fun i hi => h i (by omega)) (by omega) i (by omega)

theorem sumTo_comp_upd {α : Type} (g : α → Nat) (f : Nat → α) (i : Nat) (v : α) (n : Nat)
    (h : i < n) :
    sumTo (fun j => g (upd f i v j)) n + g (f i) = sumTo (fun j => g (f j)) n + g v := by
  rw [comp_upd]
  exact sumTo_upd (fun j => g (f j)) i n (g v) h

namespace addUsersToDB

theorem workerOK_frame {env : Env} {users : List Users} {i : Nat} {ins ins2 wr wr2 : Prop}
    {main main2 : MainPC} {pc : WorkerPC} (h : WorkerOK env users i ins wr main pc)
    (hi : ins2 ↔ ins) (hw : wr2 ↔ wr)
    (hm : ∀ e, main = .returned (some e) → main2 = .returned (some e)) :
    WorkerOK env users i ins2 wr2 main2 pc := by
  cases pc with
  | hashing u => simpa [WorkerOK, hi, hw] using h
  | inserting v => simpa [WorkerOK, hi, hw] using h
  | writing v name => simpa [WorkerOK, hi, hw] using h
  | sending m => simpa [WorkerOK, hi, hw] using h
  | deferred =>
    obtain ⟨u, hu, h1, h2, h3⟩ := h
    exact ⟨u, hu, by rw [hi]; exact h1, by rw [hw]; exact h2, fun e he => hm e (h3 e he)⟩
  | exited =>
    rcases h with ⟨hu, h1, h2⟩ | ⟨u, hu, h1, h2, h3⟩
    · exact Or.inl ⟨hu, by rw [hi]; exact h1, by rw [hw]; exact h2⟩
    · exact Or.inr ⟨u, hu, by rw [hi]; exact h1, by rw [hw]; exact h2, fun e he => hm e (h3 e he)⟩

theorem workerOK_lt {env : Env} {users : List Users} {i : Nat} {ins wr : Prop}
    {main : MainPC} {pc : WorkerPC} (h : WorkerOK env users i ins wr main pc)
    (hp : pc ≠ .exited) : i < users.length := by
  have key : ∀ u, users[i]? = some u → i < users.length := by
    intro u hu
    by_contra hlt
    rw [List.getElem?_eq_none (by omega)] at hu
    cases hu
  cases pc with
  | hashing u => exact key u h.1
  | inserting v => obtain ⟨u, _, hu, _⟩ := h; exact key u hu
  | writing v name => obtain ⟨u, _, _, hu, _⟩ := h; exact key u hu
  | sending m => obtain ⟨u, _, hu, _⟩ := h; exact key u hu
  | deferred => obtain ⟨u, hu, _⟩ := h; exact key u hu
  | exited => exact absurd rfl hp

theorem workers_upd {env : Env} {users : List Users} {w0 : World} {s : State}
    (h : Inv env users w0 s) (j : Nat) (v : WorkerPC) (ins wr : List Nat)
    (hins : ∀ i, i ≠ j → (i ∈ ins ↔ i ∈ s.inserts))
    (hwr : ∀ i, i ≠ j → (i ∈ wr ↔ i ∈ s.wrote))
    (hj : WorkerOK env users j (j ∈ ins) (j ∈ wr) s.main v) :
    ∀ i, WorkerOK env users i (i ∈ ins) (i ∈ wr) s.main (upd s.pc j v i) := by
  intro i
  by_cases hij : i = j
  · subst hij
    rw [upd_same]
    exact hj
  · rw [upd_other _ _ _ _ hij]
    exact workerOK_frame (h.workers i) (hins i hij) (hwr i hij) (fun e he => he)

theorem wg_upd {env : Env} {users : List Users} {w0 : World} {s : State}
    (h : Inv env users w0 s) (j : Nat) (v : WorkerPC) (hlt : j < users.length)
    (hc : v.exitedCount = (s.pc j).exitedCount) :
    s.wg = (users.length : Int)
      - (sumTo (fun i => (upd s.pc j v i).exitedCount) users.length : Nat) := by
  have := sumTo_comp_upd WorkerPC.exitedCount s.pc j v users.length hlt
  rw [h.wg]
  omega

theorem touched_upd {env : Env} {users : List Users} {w0 : World} {s : State}
    (h : Inv env users w0 s) (j : Nat) (v : WorkerPC) (t : List Nat)
    (ht : ∀ i, i ≠ j → (i ∈ t ↔ i ∈ s.touched))
    (hj : j ∈ t ↔ (v.pastCalls = true ∧ (leftFile env users j).isSome = true)) :
    ∀ i, i ∈ t ↔ ((upd s.pc j v i).pastCalls = true ∧ (leftFile env users i).isSome = true) := by
  intro i
  by_cases hij : i = j
  · subst hij
    rw [upd_same]
    exact hj
  · rw [upd_other _ _ _ _ hij, ht i hij]
    exact h.touchedOK i

theorem not_touched {env : Env} {users : List Users} {w0 : World} {s : State}
    (h : Inv env users w0 s) (j : Nat) (hp : (s.pc j).pastCalls = false) : j ∉ s.touched := by
  intro hj
  have := ((h.touchedOK j).1 hj).1
  rw [hp] at this
  cases this

theorem workerErr_of_hashErr {env : Env} {i : Nat} {u : Users} {e : GoErr}
    (h : env.GenerateFromPassword i u.Password = .error e) :
    workerErr env i u = some e ∧ docOf env i u = none := by
  simp [workerErr, docOf, h]

theorem workerErr_of_insertErr {env : Env} {i : Nat} {u : Users} {hash : String} {e : GoErr}
    (h : env.GenerateFromPassword i u.Password = .ok hash)
    (h2 : env.InsertOne i { u with Password := hash } = .error e) :
    workerErr env i u = some e ∧ docOf env i u = none := by
  simp [workerErr, docOf, h, h2]

theorem workerErr_of_insertOk {env : Env} {i : Nat} {u : Users} {hash : String} {id : ObjectID}
    (h : env.GenerateFromPassword i u.Password = .ok hash)
    (h2 : env.InsertOne i { u with Password := hash } = .ok id) :
    workerErr env i u = env.WriteFile i ("./data/" ++ id.Hex) u.Data
      ∧ docOf env i u = some ⟨id, { u with Password := hash }⟩ := by
  simp [workerErr, docOf, h, h2]

theorem exitedCount_le (p : WorkerPC) : p.exitedCount ≤ 1 := by
  cases p <;> simp [WorkerPC.exitedCount]

theorem inv_step_worker {env : Env} {users : List Users} {w0 : World} {s : State}
    (h : Inv env users w0 s) (j : Nat) : Inv env users w0 (step env s (.worker j)) := by
  have hj := h.workers j
  cases hpc : s.pc j with
  | hashing u =>
    rw [hpc] at hj
    have hlt : j < users.length := workerOK_lt hj (by simp)
    obtain ⟨hu, hni, hnw⟩ := hj
    simp only [step, hpc]
    have hnt : j ∉ s.touched := not_touched h j (by rw [hpc]; rfl)
    cases hg : env.GenerateFromPassword j u.Password with
    | error e =>
      have hw := workerErr_of_hashErr hg
      refine ⟨h.launched, ?_, h.nodupI, h.nodupW, h.docs, h.writes, ?_, h.waiter, h.main,
        h.nodupT, ?_⟩
      · apply workers_upd h j _ _ _ (fun _ _ => Iff.rfl) (fun _ _ => Iff.rfl)
        exact ⟨u, e, hu, rfl, hw.1, by simp [hw.2, hni], hnw⟩
      · exact wg_upd h j _ hlt (by simp [hpc, WorkerPC.exitedCount])
      · apply touched_upd h j _ _ (fun _ _ => Iff.rfl)
        simp [leftFile, hu, hw.2, hnt]
    | ok hash =>
      refine ⟨h.launched, ?_, h.nodupI, h.nodupW, h.docs, h.writes, ?_, h.waiter, h.main,
        h.nodupT, ?_⟩
      · apply workers_upd h j _ _ _ (fun _ _ => Iff.rfl) (fun _ _ => Iff.rfl)
        exact ⟨u, hash, hu, hg, rfl, hni, hnw⟩
      · exact wg_upd h j _ hlt (by simp [hpc, WorkerPC.exitedCount])
      · apply touched_upd h j _ _ (fun _ _ => Iff.rfl)
        simp [WorkerPC.pastCalls, hnt]
  | inserting v =>
    rw [hpc] at hj
    have hlt : j < users.length := workerOK_lt hj (by simp)
    obtain ⟨u, hash, hu, hg, hv, hni, hnw⟩ := hj
    simp only [step, hpc]
    have hnt : j ∉ s.touched := not_touched h j (by rw [hpc]; rfl)
    cases hi : env.InsertOne j v with
    | error e =>
      have hw := workerErr_of_insertErr hg (hv ▸ hi)
      refine ⟨h.launched, ?_, h.nodupI, h.nodupW, h.docs, h.writes, ?_, h.waiter, h.main,
        h.nodupT, ?_⟩
      · apply workers_upd h j _ _ _ (fun _ _ => Iff.rfl) (fun _ _ => Iff.rfl)
        exact ⟨u, e, hu, rfl, hw.1, by simp [hw.2, hni], hnw⟩
      · exact wg_upd h j _ hlt (by simp [hpc, WorkerPC.exitedCount])
      · apply touched_upd h j _ _ (fun _ _ => Iff.rfl)
        simp [leftFile, hu, hw.2, hnt]
    | ok id =>
      have hw := workerErr_of_insertOk hg (hv ▸ hi)
      refine ⟨h.launched, ?_, ?_, h.nodupW, ?_, h.writes, ?_, h.waiter, h.main, h.nodupT, ?_⟩
      · apply workers_upd h j _ _ _ (fun i hij => by simp [hij]) (fun _ _ => Iff.rfl)
        exact ⟨u, hash, id, hu, hg, hv, hi, rfl, by simp, hnw⟩
      · exact List.Nodup.append h.nodupI (List.nodup_singleton j) (by simpa using hni)
      · have : insertedDoc env users j = some ⟨id, v⟩ := by
          simp [insertedDoc, hu, hw.2, hv]
        simp [h.docs, List.filterMap_append, this]
      · exact wg_upd h j _ hlt (by simp [hpc, WorkerPC.exitedCount])
      · apply touched_upd h j _ _ (fun _ _ => Iff.rfl)
        simp [WorkerPC.pastCalls, hnt]
  | writing v name =>
    rw [hpc] at hj
    have hlt : j < users.length := workerOK_lt hj (by simp)
    obtain ⟨u, hash, id, hu, hg, hv, hi, hname, hin, hnw⟩ := hj
    have hw := workerErr_of_insertOk hg (hv ▸ hi)
    have hdata : v.Data = u.Data := by rw [hv]
    simp only [step, hpc]
    have hnt : j ∉ s.touched := not_touched h j (by rw [hpc]; rfl)
    cases hwf : env.WriteFile j ("./data/" ++ name) v.Data with
    | some e =>
      have hwe : workerErr env j u = some e := by rw [hw.1, ← hname, ← hdata, hwf]
      have hwf2 : env.WriteFile j ("./data/" ++ id.Hex) u.Data = some e := by
        rw [← hname, ← hdata, hwf]
      cases hres : env.WriteFileResidue j ("./data/" ++ name) v.Data with
      | none =>
        have hres2 : env.WriteFileResidue j ("./data/" ++ id.Hex) u.Data = none := by
          rw [← hname, ← hdata, hres]
        refine ⟨h.launched, ?_, h.nodupI, h.nodupW, h.docs, h.writes, ?_, h.waiter, h.main,
          h.nodupT, ?_⟩
        · apply workers_upd h j _ _ _ (fun _ _ => Iff.rfl) (fun _ _ => Iff.rfl)
          exact ⟨u, e, hu, rfl, hwe, by simp [hw.2, hin], hnw⟩
        · exact wg_upd h j _ hlt (by simp [hpc, WorkerPC.exitedCount])
        · apply touched_upd h j _ _ (fun _ _ => Iff.rfl)
          simp [leftFile, hu, hw.2, hwf2, hres2, hnt]
      | some c =>
        have hres2 : env.WriteFileResidue j ("./data/" ++ id.Hex) u.Data = some c := by
          rw [← hname, ← hdata, hres]
        have hleft : leftFile env users j = some ("./data/" ++ name, c) := by
          simp [leftFile, hu, hw.2, hwf2, hres2, hname]
        refine ⟨h.launched, ?_, h.nodupI, h.nodupW, h.docs, ?_, ?_, h.waiter, h.main, ?_, ?_⟩
        · apply workers_upd h j _ _ _ (fun _ _ => Iff.rfl) (fun _ _ => Iff.rfl)
          exact ⟨u, e, hu, rfl, hwe, by simp [hw.2, hin], hnw⟩
        · simp [h.writes, List.filterMap_append, hleft]
        · exact wg_upd h j _ hlt (by simp [hpc, WorkerPC.exitedCount])
        · exact List.Nodup.append h.nodupT (List.nodup_singleton j) (by simpa using hnt)
        · apply touched_upd h j _ _ (fun i hij => by simp [hij])
          simp [WorkerPC.pastCalls, hleft]
    | none =>
      have hwe : workerErr env j u = none := by rw [hw.1, ← hname, ← hdata, hwf]
      have hwf2 : env.WriteFile j ("./data/" ++ id.Hex) u.Data = none := by
        rw [← hname, ← hdata, hwf]
      have hleft : leftFile env users j = some ("./data/" ++ name, v.Data) := by
        simp [leftFile, hu, hw.2, hwf2, hname, hdata]
      refine ⟨h.launched, ?_, h.nodupI, ?_, h.docs, ?_, ?_, h.waiter, h.main, ?_, ?_⟩
      · apply workers_upd h j _ _ _ (fun _ _ => Iff.rfl) (fun i hij => by simp [hij])
        exact ⟨u, hu, by simp [hw.2, hin], by simp [hwe], by simp [hwe]⟩
      · exact List.Nodup.append h.nodupW (List.nodup_singleton j) (by simpa using hnw)
      · simp [h.writes, List.filterMap_append, hleft]
      · exact wg_upd h j _ hlt (by simp [hpc, WorkerPC.exitedCount])
      · exact List.Nodup.append h.nodupT (List.nodup_singleton j) (by simpa using hnt)
      · apply touched_upd h j _ _ (fun i hij => by simp [hij])
        simp [WorkerPC.pastCalls, hleft]
  | sending m =>
    simp only [step, hpc]
    exact h
  | deferred =>
    rw [hpc] at hj
    have hlt : j < users.length := workerOK_lt hj (by simp)
    obtain ⟨u, hu, hs⟩ := hj
    simp only [step, hpc]
    have hsum := sumTo_comp_upd WorkerPC.exitedCount s.pc j .exited users.length hlt
    have e1 : (s.pc j).exitedCount = 0 := by rw [hpc]; rfl
    have e2 : WorkerPC.exited.exitedCount = 1 := rfl
    rw [e1, e2] at hsum
    have hwg := h.wg
    have hpos : 0 < s.wg := by
      by_contra hneg
      have hle := sumTo_le (fun i => (s.pc i).exitedCount) 1 users.length
        (fun i _ => exitedCount_le _)
      have h0 : sumTo (fun i => (s.pc i).exitedCount) users.length = 1 * users.length := by omega
      have := sumTo_eq_max _ 1 users.length (fun i _ => exitedCount_le _) h0 j hlt
      simp only at this
      omega
    refine ⟨h.launched, ?_, h.nodupI, h.nodupW, h.docs, h.writes, ?_, ?_, h.main, h.nodupT, ?_⟩
    rotate_right
    · apply touched_upd h j _ _ (fun _ _ => Iff.rfl)
      have := h.touchedOK j
      rw [hpc] at this
      exact this
    · apply workers_upd h j _ _ _ (fun _ _ => Iff.rfl) (fun _ _ => Iff.rfl)
      exact Or.inr ⟨u, hu, hs⟩
    · show s.wg - 1 = (users.length : Int)
        - (sumTo (fun i => (upd s.pc j .exited i).exitedCount) users.length : Nat)
      omega
    · have hw := h.waiter
      show WaiterOK (s.wg - 1) s.done s.waiter
      cases hwt : s.waiter with
      | absent => rw [hwt] at hw; exact hw
      | waiting => rw [hwt] at hw; exact hw
      | closing => rw [hwt] at hw; exact absurd hw.1 (by omega)
      | exited => rw [hwt] at hw; exact absurd hw.1 (by omega)
  | exited =>
    simp only [step, hpc]
    exact h

theorem inv_step_waiter {env : Env} {users : List Users} {w0 : World} {s : State}
    (h : Inv env users w0 s) : Inv env users w0 (step env s .waiter) := by
  have hw := h.waiter
  cases hwt : s.waiter with
  | absent => simp only [step, hwt]; exact h
  | waiting =>
    rw [hwt] at hw
    simp only [step, hwt]
    split
    · rename_i h0
      exact ⟨h.launched, h.workers, h.nodupI, h.nodupW, h.docs, h.writes, h.wg, ⟨h0, hw⟩, h.main,
        h.nodupT, h.touchedOK⟩
    · exact h
  | closing =>
    rw [hwt] at hw
    simp only [step, hwt]
    refine ⟨h.launched, h.workers, h.nodupI, h.nodupW, h.docs, h.writes, h.wg, ⟨hw.1, rfl⟩, ?_,
      h.nodupT, h.touchedOK⟩
    have hm := h.main
    show MainOK env users true s.main
    cases hmn : s.main with
    | select => trivial
    | returned r =>
      rw [hmn] at hm
      cases r with
      | none => rfl
      | some e => exact hm
    | halted x => rw [hmn] at hm; exact hm
  | exited => simp only [step, hwt]; exact h

theorem inv_step_recvDone {env : Env} {users : List Users} {w0 : World} {s : State}
    (h : Inv env users w0 s) : Inv env users w0 (step env s .recvDone) := by
  cases hmn : s.main with
  | select =>
    simp only [step, hmn]
    split
    · rename_i hd
      refine ⟨h.launched, ?_, h.nodupI, h.nodupW, h.docs, h.writes, h.wg, h.waiter, hd,
        h.nodupT, h.touchedOK⟩
      intro i
      exact workerOK_frame (h.workers i) Iff.rfl Iff.rfl (fun e he => by rw [hmn] at he; cases he)
    · exact h
  | returned r => simp only [step, hmn]; exact h
  | halted x => simp only [step, hmn]; exact h

theorem inv_step_recvErr {env : Env} {users : List Users} {w0 : World} {s : State}
    (h : Inv env users w0 s) (j : Nat) : Inv env users w0 (step env s (.recvErr j)) := by
  cases hmn : s.main with
  | select =>
    simp only [step, hmn]
    have hj := h.workers j
    cases hpc : s.pc j with
    | sending m =>
      rw [hpc] at hj
      have hlt : j < users.length := workerOK_lt hj (by simp)
      obtain ⟨u, e, hu, hm, hwe, hins, hnw⟩ := hj
      subst hm
      simp only [Option.isSome_some, if_true]
      refine ⟨h.launched, ?_, h.nodupI, h.nodupW, h.docs, h.writes, ?_, h.waiter, ⟨j, u, hu, hwe⟩,
        h.nodupT, ?_⟩
      rotate_right
      · apply touched_upd h j _ _ (fun _ _ => Iff.rfl)
        have := h.touchedOK j
        rw [hpc] at this
        exact this
      · intro i
        dsimp only
        by_cases hij : i = j
        · subst hij
          rw [upd_same]
          exact ⟨u, hu, hins, by simp [hwe, hnw], fun e2 he2 => by rw [hwe] at he2; rw [he2]⟩
        · rw [upd_other _ _ _ _ hij]
          exact workerOK_frame (h.workers i) Iff.rfl Iff.rfl (fun e he => by rw [hmn] at he; cases he)
      · exact wg_upd h j _ hlt (by simp [hpc, WorkerPC.exitedCount])
    | hashing u => exact h
    | inserting u => exact h
    | writing u n => exact h
    | deferred => exact h
    | exited => exact h
  | returned r => simp only [step, hmn]; exact h
  | halted x => simp only [step, hmn]; exact h

theorem inv_step {env : Env} {users : List Users} {w0 : World} {s : State}
    (h : Inv env users w0 s) (a : Action) : Inv env users w0 (step env s a) := by
  cases a with
  | worker j => exact inv_step_worker h j
  | waiter => exact inv_step_waiter h
  | recvDone => exact inv_step_recvDone h
  | recvErr j => exact inv_step_recvErr h j

theorem inv_exec {env : Env} {users : List Users} {w0 : World} (sched : List Action) :
    ∀ {s : State}, Inv env users w0 s → Inv env users w0 (exec env s sched) := by
  induction sched with
  | nil => intro s h; exact h
  | cons a rest ih => intro s h; exact ih (inv_step h a)

end addUsersToDB

theorem sumTo_congr (f g : Nat → Nat) (n : Nat) (h : ∀ i, i < n → f i = g i) :
    sumTo f n = sumTo g n := by
  induction n with
  | zero => rfl
  | succ m ih => simp [sumTo, ih (fun i hi => h i (by omega)), h m (by omega)]

namespace addUsersToDB

theorem step_of_not_enabled (env : Env) (s : State) (a : Action) (h : enabled s a = false) :
    step env s a = s := by
  cases a with
  | worker i =>
    cases hpc : s.pc i <;> simp [enabled, hpc] at h <;> simp [step, hpc]
  | waiter =>
    cases hw : s.waiter <;> simp [enabled, hw] at h <;> simp [step, hw, h]
  | recvDone =>
    cases hm : s.main <;> simp [enabled, hm] at h <;> simp [step, hm, h]
  | recvErr i =>
    cases hm : s.main <;> cases hpc : s.pc i <;> simp [enabled, hm, hpc] at h <;>
      simp [step, hm, hpc]

theorem getClient_err (env : Env) (g g1 : Globals) (c : Client) (err : GoError)
    (hr : GetMongoDBClient env g = .ret (g1, c, err)) : err = none := by
  unfold GetMongoDBClient at hr
  simp only at hr
  split at hr
  · cases hr
  · cases hr
  · split at hr
    · cases hr
    · split at hr
      · cases hr
      · cases hr; rfl

theorem init_running (env : Env) (g : Globals) (users : List Users) (w0 : World)
    (hc : ∃ r, GetMongoDBClient env g = .ret r) :
    init env g users w0 =
      { launched := users.length, pc := launch users, wg := users.length, waiter := .waiting,
        done := false, main := .select, world := w0, inserts := [], wrote := [],
        touched := [] } := by
  obtain ⟨⟨g1, c, err⟩, hr⟩ := hc
  have herr := getClient_err env g g1 c err hr
  subst herr
  simp [init, hr]

theorem inv_init (env : Env) (g : Globals) (users : List Users) (w0 : World)
    (hc : ∃ r, GetMongoDBClient env g = .ret r) :
    Inv env users w0 (init env g users w0) := by
  rw [init_running env g users w0 hc]
  refine ⟨rfl, ?_, List.nodup_nil, List.nodup_nil, by simp, by simp, ?_, rfl, trivial,
    List.nodup_nil, ?_⟩
  rotate_right
  · intro i
    dsimp only [launch]
    cases hu : users[i]? with
    | none => simp [leftFile, hu]
    | some u => simp [WorkerPC.pastCalls]
  · intro i
    dsimp only [launch]
    cases hu : users[i]? with
    | none => exact Or.inl ⟨hu, by simp, by simp⟩
    | some u => exact ⟨hu, by simp, by simp⟩
  · dsimp only
    have h0 := sumTo_le (fun i => (launch users i).exitedCount) 0 users.length (by
      intro i hi
      simp [launch, List.getElem?_eq_getElem hi, WorkerPC.exitedCount])
    omega

theorem init_stopped (env : Env) (g : Globals) (users : List Users) (w0 : World)
    (hc : ¬ ∃ r, GetMongoDBClient env g = .ret r) :
    ∃ x, init env g users w0 = stopped users w0 (.halted x) := by
  cases hr : GetMongoDBClient env g with
  | ret r => exact absurd ⟨r, hr⟩ hc
  | exit c => exact ⟨.exit c, by simp [init, hr]⟩
  | panic => exact ⟨.panic, by simp [init, hr]⟩

theorem exec_stopped (env : Env) (users : List Users) (w0 : World) (x : Halt)
    (sched : List Action) :
    exec env (stopped users w0 (.halted x)) sched = stopped users w0 (.halted x) := by
  induction sched with
  | nil => rfl
  | cons a rest ih =>
    have hs : step env (stopped users w0 (.halted x)) a = stopped users w0 (.halted x) :=
      step_of_not_enabled env _ a (by cases a <;> rfl)
    simp only [exec, List.foldl_cons, hs] at ih ⊢
    exact ih

theorem inv_all_exited_of_wg {env : Env} {users : List Users} {w0 : World} {s : State}
    (h : Inv env users w0 s) (h0 : s.wg = 0) : ∀ i, s.pc i = .exited := by
  have hle := sumTo_le (fun i => (s.pc i).exitedCount) 1 users.length (fun i _ => exitedCount_le _)
  have hwg := h.wg
  have hs : sumTo (fun i => (s.pc i).exitedCount) users.length = 1 * users.length := by omega
  have hall := sumTo_eq_max _ 1 users.length (fun i _ => exitedCount_le _) hs
  intro i
  by_cases hi : i < users.length
  · have := hall i hi
    cases hpc : s.pc i <;> simp [hpc, WorkerPC.exitedCount] at this
    rfl
  · have hw := h.workers i
    by_contra hne
    exact hi (workerOK_lt hw hne)

theorem inv_wg_of_all_exited {env : Env} {users : List Users} {w0 : World} {s : State}
    (h : Inv env users w0 s) (hall : ∀ i, i < users.length → s.pc i = .exited) : s.wg = 0 := by
  have := sumTo_congr (fun i => (s.pc i).exitedCount) (fun _ => 1) users.length
    (fun i hi => by simp [hall i hi, WorkerPC.exitedCount])
  have h1 : sumTo (fun _ => 1) users.length = users.length := by
    induction users.length with
    | zero => rfl
    | succ m ih => simp [sumTo, ih]
  have := h.wg
  omega

theorem inv_returned_of_quiescent {env : Env} {users : List Users} {w0 : World} {s : State}
    (h : Inv env users w0 s) (hq : quiescent s = true) : ∃ r, s.main = .returned r := by
  simp only [quiescent, Bool.and_eq_true, List.all_eq_true, List.mem_range, Bool.not_eq_true',
    h.launched] at hq
  obtain ⟨⟨hworkers, hwaiter⟩, hdone⟩ := hq
  cases hm : s.main with
  | returned r => exact ⟨r, rfl⟩
  | halted x => have := h.main; rw [hm] at this; exact absurd this id
  | select =>
    exfalso
    have hall : ∀ i, i < users.length → s.pc i = .exited := by
      intro i hi
      have := hworkers i hi
      cases hpc : s.pc i <;> simp [enabled, hpc, hm] at this
      rfl
    have hwg := inv_wg_of_all_exited h hall
    have hw := h.waiter
    cases hwt : s.waiter with
    | absent => rw [hwt] at hw; exact hw
    | waiting => simp [enabled, hwt, hwg] at hwaiter
    | closing => simp [enabled, hwt] at hwaiter
    | exited =>
      rw [hwt] at hw
      simp [enabled, hm, hw.2] at hdone

theorem inv_measure_decreases {env : Env} {users : List Users} {w0 : World} {s : State}
    (h : Inv env users w0 s) (a : Action) (he : enabled s a = true) :
    measure (step env s a) < measure s := by
  cases a with
  | worker j =>
    have hj := h.workers j
    have hlt : j < s.launched := by
      rw [h.launched]
      apply workerOK_lt hj
      intro hx
      simp [enabled, hx] at he
    cases hpc : s.pc j with
    | hashing u =>
      simp only [step, hpc]
      cases env.GenerateFromPassword j u.Password with
      | error e =>
        have := sumTo_comp_upd WorkerPC.weight s.pc j (.sending (some e)) s.launched hlt
        rw [hpc] at this
        simp only [measure, WorkerPC.weight] at this ⊢
        omega
      | ok hash =>
        have := sumTo_comp_upd WorkerPC.weight s.pc j
          (.inserting { u with Password := hash }) s.launched hlt
        rw [hpc] at this
        simp only [measure, WorkerPC.weight] at this ⊢
        omega
    | inserting u =>
      simp only [step, hpc]
      cases env.InsertOne j u with
      | error e =>
        have := sumTo_comp_upd WorkerPC.weight s.pc j (.sending (some e)) s.launched hlt
        rw [hpc] at this
        simp only [measure, WorkerPC.weight] at this ⊢
        omega
      | ok id =>
        have := sumTo_comp_upd WorkerPC.weight s.pc j (.writing u id.Hex) s.launched hlt
        rw [hpc] at this
        simp only [measure, WorkerPC.weight] at this ⊢
        omega
    | writing u name =>
      simp only [step, hpc]
      cases env.WriteFile j ("./data/" ++ name) u.Data with
      | some e =>
        have := sumTo_comp_upd WorkerPC.weight s.pc j (.sending (some e)) s.launched hlt
        rw [hpc] at this
        cases env.WriteFileResidue j ("./data/" ++ name) u.Data <;>
          simp only [measure, WorkerPC.weight] at this ⊢ <;> omega
      | none =>
        have := sumTo_comp_upd WorkerPC.weight s.pc j .deferred s.launched hlt
        rw [hpc] at this
        simp only [measure, WorkerPC.weight] at this ⊢
        omega
    | sending m => simp [enabled, hpc] at he
    | deferred =>
      simp only [step, hpc]
      have := sumTo_comp_upd WorkerPC.weight s.pc j .exited s.launched hlt
      rw [hpc] at this
      simp only [measure, WorkerPC.weight] at this ⊢
      omega
    | exited => simp [enabled, hpc] at he
  | waiter =>
    cases hw : s.waiter with
    | absent => simp [enabled, hw] at he
    | waiting =>
      simp only [enabled, hw, beq_iff_eq] at he
      simp [step, hw, he, measure, WaiterPC.weight]
    | closing => simp [step, hw, measure, WaiterPC.weight]
    | exited => simp [enabled, hw] at he
  | recvDone =>
    cases hm : s.main with
    | select =>
      simp only [enabled, hm] at he
      simp [step, hm, he, measure]
    | returned r => simp [enabled, hm] at he
    | halted x => simp [enabled, hm] at he
  | recvErr j =>
    cases hm : s.main with
    | select =>
      cases hpc : s.pc j with
      | sending m =>
        have hj := h.workers j
        have hlt : j < s.launched := by
          rw [h.launched]
          exact workerOK_lt hj (by simp [hpc])
        have := sumTo_comp_upd WorkerPC.weight s.pc j .deferred s.launched hlt
        rw [hpc] at this
        simp only [step, hm, hpc]
        split <;> simp only [measure, WorkerPC.weight] at this ⊢ <;> omega
      | hashing u => simp [enabled, hm, hpc] at he
      | inserting u => simp [enabled, hm, hpc] at he
      | writing u n => simp [enabled, hm, hpc] at he
      | deferred => simp [enabled, hm, hpc] at he
      | exited => simp [enabled, hm, hpc] at he
    | returned r => simp [enabled, hm] at he
    | halted x => simp [enabled, hm] at he

end addUsersToDB

theorem hexDigit_inj : ∀ a, a < 16 → ∀ b, b < 16 → hexDigit a = hexDigit b → a = b := by
  decide

theorem hexByte_inj (a b : Fin 256) (h : hexByte a = hexByte b) : a = b := by
  simp only [hexByte, List.cons.injEq, and_true] at h
  have h1 := hexDigit_inj (a.val / 16) (by omega) (b.val / 16) (by omega) h.1
  have h2 := hexDigit_inj (a.val % 16) (Nat.mod_lt _ (by omega)) (b.val % 16)
    (Nat.mod_lt _ (by omega)) h.2
  apply Fin.ext
  omega

theorem flatMap_hexByte_inj : ∀ (xs ys : List (Fin 256)),
    xs.flatMap hexByte = ys.flatMap hexByte → xs = ys := by
  intro xs
  induction xs with
  | nil =>
    intro ys h
    cases ys with
    | nil => rfl
    | cons y ys => simp [List.flatMap_cons, hexByte] at h
  | cons x xs ih =>
    intro ys h
    cases ys with
    | nil => simp [List.flatMap_cons, hexByte] at h
    | cons y ys =>
      simp only [List.flatMap_cons, hexByte, List.cons_append, List.nil_append,
        List.cons.injEq] at h
      obtain ⟨h1, h2, h3⟩ := h
      have hxy : x = y := hexByte_inj x y (by simp [hexByte, h1, h2])
      rw [hxy, ih ys h3]

theorem ObjectID.Hex_inj (a b : ObjectID) (h : a.Hex = b.Hex) : a = b := by
  cases a with
  | mk xs =>
    cases b with
    | mk ys =>
      have h2 := congrArg String.data h
      simp only [ObjectID.Hex] at h2
      rw [flatMap_hexByte_inj xs ys h2]

theorem path_inj (a b : ObjectID) (h : "./data/" ++ a.Hex = "./data/" ++ b.Hex) : a = b := by
  apply ObjectID.Hex_inj
  have h2 := congrArg String.data h
  simp only [String.data_append] at h2
  exact String.ext (List.append_cancel_left h2)

theorem lastWrite_some_mem (p c : String) (l : List (String × String))
    (h : lastWrite p l = some c) : (p, c) ∈ l := by
  induction l with
  | nil => cases h
  | cons e rest ih =>
    simp only [lastWrite] at h
    cases hr : lastWrite p rest with
    | some c2 =>
      rw [hr] at h
      simp only [Option.some.injEq] at h
      subst h
      exact List.mem_cons_of_mem _ (ih hr)
    | none =>
      rw [hr] at h
      simp only at h
      split at h
      · rename_i he
        simp only [Option.some.injEq] at h
        rw [← he, ← h]
        exact List.mem_cons_self _ _
      · cases h

theorem lastWrite_ne_none (p c : String) (l : List (String × String)) (hm : (p, c) ∈ l) :
    lastWrite p l ≠ none := by
  induction l with
  | nil => cases hm
  | cons e rest ih =>
    simp only [lastWrite]
    cases hr : lastWrite p rest with
    | some c2 => simp
    | none =>
      rcases List.mem_cons.1 hm with h1 | h1
      · simp [← h1]
      · exact absurd hr (ih h1)

theorem lastWrite_of_mem (p c : String) (l : List (String × String)) (hm : (p, c) ∈ l)
    (hu : ∀ c2, (p, c2) ∈ l → c2 = c) : lastWrite p l = some c := by
  cases h : lastWrite p l with
  | none => exact absurd h (lastWrite_ne_none p c l hm)
  | some c2 => rw [hu c2 (lastWrite_some_mem p c2 l h)]

theorem lastWrite_append (p : String) (old new : List (String × String)) :
    lastWrite p (old ++ new) = match lastWrite p new with
      | some c => some c
      | none => lastWrite p old := by
  induction old with
  | nil =>
    simp only [List.nil_append, lastWrite]
    cases lastWrite p new <;> rfl
  | cons e rest ih =>
    rw [List.cons_append, lastWrite, ih]
    cases lastWrite p new <;> simp [lastWrite]

theorem find?_unique {α : Type} (p : α → Bool) (x : α) (l : List α) (hm : x ∈ l) (hp : p x = true)
    (hu : ∀ y, y ∈ l → p y = true → y = x) : l.find? p = some x := by
  induction l with
  | nil => cases hm
  | cons a rest ih =>
    by_cases ha : p a = true
    · have := hu a (List.mem_cons_self _ _) ha
      subst this
      simp [List.find?, ha]
    · have hx : x ∈ rest := by
        rcases List.mem_cons.1 hm with h1 | h1
        · subst h1; exact absurd hp ha
        · exact h1
      simp only [List.find?, Bool.not_eq_true] at ha ⊢
      rw [ha]
      exact ih hx (fun y hy => hu y (List.mem_cons_of_mem _ hy))

theorem length_filterMap_of_isSome {α β : Type} (f : α → Option β) (l : List α)
    (h : ∀ x, x ∈ l → (f x).isSome = true) : (l.filterMap f).length = l.length := by
  induction l with
  | nil => rfl
  | cons a rest ih =>
    have ha := h a (List.mem_cons_self _ _)
    obtain ⟨b, hb⟩ := Option.isSome_iff_exists.1 ha
    simp [List.filterMap_cons, hb, ih (fun x hx => h x (List.mem_cons_of_mem _ hx))]

theorem perm_range_of_nodup (l : List Nat) (n : Nat) (hn : l.Nodup)
    (hm : ∀ i, i ∈ l ↔ i < n) : l.Perm (List.range n) :=
  (List.perm_ext_iff_of_nodup hn (List.nodup_range n)).2 (fun i => by simp [hm i])

namespace addUsersToDB

theorem inv_run (env : Env) (g : Globals) (users : List Users) (w0 : World)
    (sched : List Action) (hc : ∃ r, GetMongoDBClient env g = .ret r) :
    Inv env users w0 (run env g users w0 sched) :=
  inv_exec sched (inv_init env g users w0 hc)

theorem run_stopped (env : Env) (g : Globals) (users : List Users) (w0 : World)
    (sched : List Action) (hc : ¬ ∃ r, GetMongoDBClient env g = .ret r) :
    ∃ x, run env g users w0 sched = stopped users w0 (.halted x) := by
  obtain ⟨x, hx⟩ := init_stopped env g users w0 hc
  exact ⟨x, by rw [run, hx, exec_stopped]⟩

theorem workerErr_none {env : Env} {i : Nat} {u : Users} (h : workerErr env i u = none) :
    ∃ hash id, env.GenerateFromPassword i u.Password = .ok hash ∧
      env.InsertOne i { u with Password := hash } = .ok id ∧
      env.WriteFile i ("./data/" ++ id.Hex) u.Data = none ∧
      docOf env i u = some ⟨id, { u with Password := hash }⟩ := by
  cases hg : env.GenerateFromPassword i u.Password with
  | error e => simp [workerErr, hg] at h
  | ok hash =>
    cases hi : env.InsertOne i { u with Password := hash } with
    | error e => simp [workerErr, hg, hi] at h
    | ok id =>
      have := workerErr_of_insertOk hg hi
      exact ⟨hash, id, rfl, hi, by rw [← this.1]; exact h, this.2⟩

theorem docOf_some {env : Env} {i : Nat} {u : Users} {d : Doc} (h : docOf env i u = some d) :
    ∃ hash, env.GenerateFromPassword i u.Password = .ok hash ∧
      env.InsertOne i { u with Password := hash } = .ok d.oid ∧
      d.user = { u with Password := hash } := by
  cases hg : env.GenerateFromPassword i u.Password with
  | error e => simp [docOf, hg] at h
  | ok hash =>
    cases hi : env.InsertOne i { u with Password := hash } with
    | error e => simp [docOf, hg, hi] at h
    | ok id =>
      simp only [docOf, hg, hi, Option.some.injEq] at h
      subst h
      exact ⟨hash, rfl, hi, rfl⟩

theorem getElem?_lt {α : Type} {l : List α} {i : Nat} {x : α} (h : l[i]? = some x) :
    i < l.length := by
  by_contra hlt
  rw [List.getElem?_eq_none (by omega)] at h
  cases h

/-- Facts available once the call has returned nil. -/
theorem inv_returned_nil {env : Env} {users : List Users} {w0 : World} {s : State}
    (h : Inv env users w0 s) (hm : s.main = .returned none) :
    (∀ i, s.pc i = .exited) ∧
    (∀ i u, users[i]? = some u → workerErr env i u = none ∧ i ∈ s.inserts ∧ i ∈ s.wrote) ∧
    (∀ i, i ∈ s.inserts → i < users.length) ∧ (∀ i, i ∈ s.wrote → i < users.length) := by
  have hd : s.done = true := by
    have := h.main
    rw [hm] at this
    exact this
  have hwg : s.wg = 0 := by
    have hw := h.waiter
    cases hwt : s.waiter <;> rw [hwt] at hw
    · exact absurd hw id
    · rw [hd] at hw; cases hw
    · rw [hd] at hw; cases hw.2
    · exact hw.1
  have hall := inv_all_exited_of_wg h hwg
  have hset : ∀ i u, users[i]? = some u →
      Settled env i u (i ∈ s.inserts) (i ∈ s.wrote) s.main := by
    intro i u hu
    have hw := h.workers i
    rw [hall i] at hw
    rcases hw with ⟨hn, _⟩ | ⟨u2, hu2, hs⟩
    · rw [hn] at hu; cases hu
    · rw [hu] at hu2
      cases hu2
      exact hs
  have hout : ∀ i, ¬ i < users.length → i ∉ s.inserts ∧ i ∉ s.wrote := by
    intro i hi
    have hw := h.workers i
    rw [hall i] at hw
    rcases hw with ⟨_, h1, h2⟩ | ⟨u2, hu2, _⟩
    · exact ⟨h1, h2⟩
    · exact absurd (getElem?_lt hu2) hi
  refine ⟨hall, ?_, ?_, ?_⟩
  · intro i u hu
    obtain ⟨h1, h2, h3⟩ := hset i u hu
    have hnone : workerErr env i u = none := by
      cases hw : workerErr env i u with
      | none => rfl
      | some e =>
        have := h3 e hw
        rw [hm] at this
        cases this
    obtain ⟨hash, id, _, _, _, hdoc⟩ := workerErr_none hnone
    exact ⟨hnone, h1.2 (by simp [hdoc]), h2.2 hnone⟩
  · intro i hi
    by_contra hlt
    exact (hout i hlt).1 hi
  · intro i hi
    by_contra hlt
    exact (hout i hlt).2 hi

theorem run_append (env : Env) (g : Globals) (users : List Users) (w0 : World)
    (sched more : List Action) :
    run env g users w0 (sched ++ more) = exec env (run env g users w0 sched) more := by
  simp [run, exec, List.foldl_append]

theorem quiescent_of_all_disabled {s : State} (h : ∀ b, enabled s b = false) :
    quiescent s = true := by
  simp [quiescent, h]

theorem enabled_of_not_quiescent {s : State} (hq : quiescent s = false) :
    ∃ a, enabled s a = true := by
  by_contra hno
  have hall : ∀ a, enabled s a = false := by
    intro a
    cases h : enabled s a with
    | false => rfl
    | true => exact absurd ⟨a, h⟩ hno
  have := quiescent_of_all_disabled hall
  rw [this] at hq
  cases hq

theorem can_finish (env : Env) {users : List Users} {w0 : World} :
    ∀ (n : Nat) (s : State), Inv env users w0 s → measure s ≤ n →
      ∃ more, quiescent (exec env s more) = true := by
  intro n
  induction n with
  | zero =>
    intro s h hm
    cases hq : quiescent s with
    | true => exact ⟨[], hq⟩
    | false =>
      obtain ⟨a, ha⟩ := enabled_of_not_quiescent hq
      have := inv_measure_decreases h a ha
      omega
  | succ k ih =>
    intro s h hm
    cases hq : quiescent s with
    | true => exact ⟨[], hq⟩
    | false =>
      obtain ⟨a, ha⟩ := enabled_of_not_quiescent hq
      have hd := inv_measure_decreases h a ha
      obtain ⟨more, hmore⟩ := ih (step env s a) (inv_step h a) (by omega)
      exact ⟨a :: more, hmore⟩

theorem run_can_return (env : Env) (g : Globals) (users : List Users) (w0 : World)
    (sched : List Action) (hc : ∃ r, GetMongoDBClient env g = .ret r) :
    ∃ more r, (run env g users w0 (sched ++ more)).main = .returned r := by
  have h := inv_run env g users w0 sched hc
  obtain ⟨more, hq⟩ := can_finish env _ _ h (le_refl _)
  rw [← run_append] at hq
  obtain ⟨r, hr⟩ := inv_returned_of_quiescent (inv_run env g users w0 (sched ++ more) hc) hq
  exact ⟨more, r, hr⟩

/-- C5 (fan-out result). For every batch and every schedule of a call whose client
check succeeded (so that the workers are launched): when `addUsersToDB` has
returned, it returned nil iff every worker succeeds at hashing, inserting and
writing; nil is returned only once every worker goroutine has exited; a non-nil
result is the error of some failing worker; a failing worker runs its deferred
`wg.Done` only after the caller has received its error. The call does return: a
run in which nothing can move any more has returned, every step decreases the
measure, and every run can be continued to one that has returned. -/
theorem fanout_result (env : Env) (g : Globals) (users : List Users) (w0 : World)
    (sched : List Action) (hc : ∃ r, GetMongoDBClient env g = .ret r) :
    (∀ r, (run env g users w0 sched).main = .returned r →
        (r = none ↔ ∀ i u, users[i]? = some u → workerErr env i u = none)
        ∧ (r = none → ∀ i, (run env g users w0 sched).pc i = .exited)
        ∧ (∀ e, r = some e → ∃ i u, users[i]? = some u ∧ workerErr env i u = some e))
    ∧ (∀ i u e, users[i]? = some u → workerErr env i u = some e →
        ((run env g users w0 sched).pc i = .deferred ∨ (run env g users w0 sched).pc i = .exited) →
        (run env g users w0 sched).main = .returned (some e))
    ∧ (quiescent (run env g users w0 sched) = true →
        ∃ r, (run env g users w0 sched).main = .returned r)
    ∧ (∀ a, enabled (run env g users w0 sched) a = true →
        measure (step env (run env g users w0 sched) a) < measure (run env g users w0 sched))
    ∧ (∃ more r, (run env g users w0 (sched ++ more)).main = .returned r) := by
  have h := inv_run env g users w0 sched hc
  refine ⟨?_, ?_, inv_returned_of_quiescent h, fun a ha => inv_measure_decreases h a ha,
    run_can_return env g users w0 sched hc⟩
  · intro r hr
    have hsome : ∀ e, r = some e → ∃ i u, users[i]? = some u ∧ workerErr env i u = some e := by
      intro e he
      subst he
      have := h.main
      rw [hr] at this
      exact this
    refine ⟨⟨?_, ?_⟩, ?_, hsome⟩
    · intro hn i u hu
      subst hn
      exact ((inv_returned_nil h hr).2.1 i u hu).1
    · intro hall
      cases r with
      | none => rfl
      | some e =>
        obtain ⟨i, u, hu, he⟩ := hsome e rfl
        rw [hall i u hu] at he
        cases he
    · intro hn
      subst hn
      exact (inv_returned_nil h hr).1
  · intro i u e hu he hpc
    have hw := h.workers i
    rcases hpc with hpc | hpc <;> rw [hpc] at hw
    · obtain ⟨u2, hu2, hs⟩ := hw
      rw [hu] at hu2
      cases hu2
      exact hs.2.2 e he
    · rcases hw with ⟨hn, _⟩ | ⟨u2, hu2, hs⟩
      · rw [hn] at hu; cases hu
      · rw [hu] at hu2
        cases hu2
        exact hs.2.2 e he

/-- C3 (persist count and naming). For every batch whose workers all succeed at
hashing, inserting and writing, with the store reachable (the client check of
`GetMongoDBClient` succeeds) and pairwise distinct generated identifiers, and for
every schedule: `addUsersToDB` returns nil (a run in which nothing can move any
more has returned nil, every step decreases the measure, and every run can be
continued to one that has returned nil), and once it has returned nil exactly `users.length` documents and exactly `users.length` payload
files have been added, one per record: record `i` has its document under the
identifier `id` its insert returned and its file at `./data/` + `id.Hex` holding
its `Data`, the paths being pairwise distinct. -/
theorem persist_count_and_naming (env : Env) (g : Globals) (users : List Users) (w0 : World)
    (sched : List Action) (hc : ∃ r, GetMongoDBClient env g = .ret r)
    (hok : ∀ i u, users[i]? = some u → workerErr env i u = none)
    (hid : ∀ i j a b, insertedDoc env users i = some a → insertedDoc env users j = some b →
      a.oid = b.oid → i = j) :
    (quiescent (run env g users w0 sched) = true →
        (run env g users w0 sched).main = .returned none)
    ∧ (∀ a, enabled (run env g users w0 sched) a = true →
        measure (step env (run env g users w0 sched) a) < measure (run env g users w0 sched))
    ∧ (∃ more, (run env g users w0 (sched ++ more)).main = .returned none)
    ∧ ((run env g users w0 sched).main = .returned none →
        ∃ newDocs newWrites,
          (run env g users w0 sched).world.docs = w0.docs ++ newDocs
          ∧ (run env g users w0 sched).world.writes = w0.writes ++ newWrites
          ∧ newDocs.length = users.length ∧ newWrites.length = users.length
          ∧ newDocs.Perm ((List.range users.length).filterMap (insertedDoc env users))
          ∧ newWrites.Perm ((List.range users.length).filterMap (writtenFile env users))
          ∧ (newWrites.map Prod.fst).Nodup
          ∧ ∀ i u, users[i]? = some u → ∃ hash id,
              env.GenerateFromPassword i u.Password = .ok hash
              ∧ env.InsertOne i { u with Password := hash } = .ok id
              ∧ (⟨id, { u with Password := hash }⟩ : Doc) ∈ newDocs
              ∧ ("./data/" ++ id.Hex, u.Data) ∈ newWrites
              ∧ (run env g users w0 sched).world.readFile ("./data/" ++ id.Hex) = some u.Data) := by
  have h := inv_run env g users w0 sched hc
  have hnil : ∀ sch r, (run env g users w0 sch).main = .returned r → r = none := by
    intro sch r hr
    cases r with
    | none => rfl
    | some e =>
      have := (inv_run env g users w0 sch hc).main
      rw [hr] at this
      obtain ⟨i, u, hu, he⟩ := this
      rw [hok i u hu] at he
      cases he
  refine ⟨?_, fun a ha => inv_measure_decreases h a ha, ?_, ?_⟩
  · intro hq
    obtain ⟨r, hr⟩ := inv_returned_of_quiescent h hq
    rw [hr, hnil sched r hr]
  · obtain ⟨more, r, hr⟩ := run_can_return env g users w0 sched hc
    exact ⟨more, by rw [hr, hnil _ r hr]⟩
  · intro hm
    obtain ⟨_, hin, hlti, _⟩ := inv_returned_nil h hm
    have hmemI : ∀ i, i ∈ (run env g users w0 sched).inserts ↔ i < users.length := by
      intro i
      refine ⟨hlti i, fun hi => ?_⟩
      exact (hin i users[i] (List.getElem?_eq_getElem hi)).2.1
    have hpI := perm_range_of_nodup _ _ h.nodupI hmemI
    have hsomeI : ∀ i, i ∈ List.range users.length →
        (insertedDoc env users i).isSome = true := by
      intro i hi
      have hi2 := List.mem_range.1 hi
      obtain ⟨hash, id, _, _, _, hdoc⟩ :=
        workerErr_none (hok i users[i] (List.getElem?_eq_getElem hi2))
      simp [insertedDoc, List.getElem?_eq_getElem hi2, hdoc]
    have hsomeW : ∀ i, i ∈ List.range users.length →
        (writtenFile env users i).isSome = true := by
      intro i hi
      have hi2 := List.mem_range.1 hi
      obtain ⟨hash, id, _, _, _, hdoc⟩ :=
        workerErr_none (hok i users[i] (List.getElem?_eq_getElem hi2))
      simp [writtenFile, pathOf, List.getElem?_eq_getElem hi2, hdoc]
    have hall := (inv_returned_nil h hm).1
    have hleft : ∀ i, i < users.length → leftFile env users i = writtenFile env users i := by
      intro i hi
      have hu := List.getElem?_eq_getElem hi
      obtain ⟨hash, id, _, _, hwf, hdoc⟩ := workerErr_none (hok i users[i] hu)
      simp [leftFile, writtenFile, pathOf, hu, hdoc, hwf]
    have hmemT : ∀ i, i ∈ (run env g users w0 sched).touched ↔ i < users.length := by
      intro i
      rw [h.touchedOK i, hall i]
      constructor
      · rintro ⟨_, hs⟩
        by_contra hi
        simp [leftFile, List.getElem?_eq_none (Nat.le_of_not_lt hi)] at hs
      · intro hi
        refine ⟨rfl, ?_⟩
        rw [hleft i hi]
        exact hsomeW i (List.mem_range.2 hi)
    have hpT := perm_range_of_nodup _ _ h.nodupT hmemT
    have hwrites : (run env g users w0 sched).world.writes
        = w0.writes ++ (run env g users w0 sched).touched.filterMap (writtenFile env users) := by
      rw [h.writes, List.filterMap_congr (fun i hi => hleft i ((hmemT i).1 hi))]
    have hpermD := hpI.filterMap (insertedDoc env users)
    have hpermW := hpT.filterMap (writtenFile env users)
    have hnd : (((run env g users w0 sched).touched.filterMap (writtenFile env users)).map
        Prod.fst).Nodup := by
      rw [List.map_filterMap]
      apply List.Nodup.filterMap _ h.nodupT
      intro i j p hi hj
      simp only [Option.mem_def, Option.map_eq_some'] at hi hj
      obtain ⟨⟨p1, c1⟩, hf1, hp1⟩ := hi
      obtain ⟨⟨p2, c2⟩, hf2, hp2⟩ := hj
      simp only at hp1 hp2
      subst hp1
      subst hp2
      unfold writtenFile at hf1 hf2
      cases hu1 : users[i]? with
      | none => simp [hu1] at hf1
      | some u1 =>
        cases hu2 : users[j]? with
        | none => simp [hu2] at hf2
        | some u2 =>
          simp only [hu1, hu2, pathOf, Option.map_map, Option.map_eq_some', Function.comp,
            Prod.mk.injEq] at hf1 hf2
          obtain ⟨d1, hd1, hp1, _⟩ := hf1
          obtain ⟨d2, hd2, hp2, _⟩ := hf2
          apply hid i j d1 d2 (by simp [insertedDoc, hu1, hd1]) (by simp [insertedDoc, hu2, hd2])
          exact path_inj _ _ (hp1.trans hp2.symm)
    refine ⟨_, _, h.docs, hwrites, ?_, ?_, hpermD, hpermW, hnd, ?_⟩
    · rw [hpermD.length_eq, length_filterMap_of_isSome _ _ hsomeI, List.length_range]
    · rw [hpermW.length_eq, length_filterMap_of_isSome _ _ hsomeW, List.length_range]
    · intro i u hu
      obtain ⟨hnone, hi, hw⟩ := hin i u hu
      obtain ⟨hash, id, hg, hio, _, hdoc⟩ := workerErr_none hnone
      have hmd : (⟨id, { u with Password := hash }⟩ : Doc) ∈
          (run env g users w0 sched).inserts.filterMap (insertedDoc env users) :=
        List.mem_filterMap.2 ⟨i, hi, by simp [insertedDoc, hu, hdoc]⟩
      have hmw : ("./data/" ++ id.Hex, u.Data) ∈
          (run env g users w0 sched).touched.filterMap (writtenFile env users) :=
        List.mem_filterMap.2 ⟨i, (hmemT i).2 (getElem?_lt hu),
          by simp [writtenFile, pathOf, hu, hdoc]⟩
      refine ⟨hash, id, hg, hio, hmd, hmw, ?_⟩
      rw [World.readFile, hwrites, lastWrite_append,
        lastWrite_of_mem _ u.Data _ hmw (fun c2 hc2 => ?_)]
      have := List.inj_on_of_nodup_map hnd hc2 hmw rfl
      exact (Prod.mk.inj this).2

theorem inv_inserted {env : Env} {users : List Users} {w0 : World} {s : State}
    (h : Inv env users w0 s) {i : Nat} (hi : i ∈ s.inserts) :
    ∃ u d, users[i]? = some u ∧ docOf env i u = some d := by
  have hw := h.workers i
  cases hpc : s.pc i <;> rw [hpc] at hw
  · exact absurd hi hw.2.1
  · obtain ⟨u, hash, _, _, _, hni, _⟩ := hw
    exact absurd hi hni
  · obtain ⟨u, hash, id, hu, hg, hv, hio, _⟩ := hw
    exact ⟨u, _, hu, (workerErr_of_insertOk hg (hv ▸ hio)).2⟩
  · obtain ⟨u, e, hu, _, _, hiff, _⟩ := hw
    obtain ⟨d, hd⟩ := Option.isSome_iff_exists.1 (hiff.1 hi)
    exact ⟨u, d, hu, hd⟩
  · obtain ⟨u, hu, hiff, _⟩ := hw
    obtain ⟨d, hd⟩ := Option.isSome_iff_exists.1 (hiff.1 hi)
    exact ⟨u, d, hu, hd⟩
  · rcases hw with ⟨_, hni, _⟩ | ⟨u, hu, hiff, _⟩
    · exact absurd hi hni
    · obtain ⟨d, hd⟩ := Option.isSome_iff_exists.1 (hiff.1 hi)
      exact ⟨u, d, hu, hd⟩

/-- C4 (secret hashed before persistence). For every batch and every schedule: the
value a worker is about to pass to `InsertOne` is its record with `Password`
replaced by the output of `GenerateFromPassword` on the submitted password and
every other field unchanged; every document added to the collection has this
form (in particular the same `ID` and `Data`), so its `Password` is the hash and
differs from the plaintext whenever the hash differs from it. -/
theorem secret_hashed_before_insert (env : Env) (g : Globals) (users : List Users) (w0 : World)
    (sched : List Action) :
    (∀ i v, (run env g users w0 sched).pc i = .inserting v →
        ∃ u hash, users[i]? = some u ∧ env.GenerateFromPassword i u.Password = .ok hash
          ∧ v = { u with Password := hash })
    ∧ ∃ newDocs, (run env g users w0 sched).world.docs = w0.docs ++ newDocs
        ∧ ∀ d, d ∈ newDocs → ∃ i u hash, users[i]? = some u
          ∧ env.GenerateFromPassword i u.Password = .ok hash
          ∧ env.InsertOne i { u with Password := hash } = .ok d.oid
          ∧ d.user = { u with Password := hash }
          ∧ d.user.Password = hash ∧ d.user.ID = u.ID ∧ d.user.Data = u.Data
          ∧ (hash ≠ u.Password → d.user.Password ≠ u.Password) := by
  by_cases hc : ∃ r, GetMongoDBClient env g = .ret r
  · have h := inv_run env g users w0 sched hc
    refine ⟨?_, _, h.docs, ?_⟩
    · intro i v hpc
      have hw := h.workers i
      rw [hpc] at hw
      obtain ⟨u, hash, hu, hg, hv, _⟩ := hw
      exact ⟨u, hash, hu, hg, hv⟩
    · intro d hd
      obtain ⟨i, hi, hdoc⟩ := List.mem_filterMap.1 hd
      unfold insertedDoc at hdoc
      cases hu : users[i]? with
      | none => simp [hu] at hdoc
      | some u =>
        simp only [hu] at hdoc
        obtain ⟨hash, hg, hio, hdu⟩ := docOf_some hdoc
        refine ⟨i, u, hash, hu, hg, hio, hdu, by rw [hdu], by rw [hdu], by rw [hdu], ?_⟩
        intro hne
        rw [hdu]
        exact hne
  · obtain ⟨x, hx⟩ := run_stopped env g users w0 sched hc
    rw [hx]
    refine ⟨?_, [], by simp [stopped], ?_⟩
    · intro i v hpc
      simp [stopped] at hpc
    · intro d hd
      cases hd

/-- C7 as amended (round trip by the record's own `id`). For every record `u` whose
insert by `addUsersToDB` has been performed, with the store reachable and the
lookup itself not failing: when no document present before the call and no
other record of the batch carries the same `ID`, `GetUsersHandler` called with
`u.ID` answers 200 with the submitted record, field for field, except that
`Password` is the hash. -/
theorem round_trip_by_record_id (env : Env) (g : Globals) (users : List Users) (w0 : World)
    (sched : List Action) (i : Nat) (u : Users)
    (hc : ∃ r, GetMongoDBClient env g = .ret r) (hfind : env.FindOne = none)
    (hdec : ∀ d, env.Decode d = none)
    (hu : users[i]? = some u) (hins : i ∈ (run env g users w0 sched).inserts)
    (hfresh : ∀ d, d ∈ w0.docs → d.user.ID ≠ u.ID)
    (huniq : ∀ j v, users[j]? = some v → v.ID = u.ID → j = i) :
    ∃ hash, env.GenerateFromPassword i u.Password = .ok hash
      ∧ GetUsersHandler env g (run env g users w0 sched).world u.ID
          = .ret ⟨200, .user { u with Password := hash }⟩ := by
  have h := inv_run env g users w0 sched hc
  obtain ⟨u2, d, hu2, hd⟩ := inv_inserted h hins
  rw [hu] at hu2
  cases hu2
  obtain ⟨hash, hg, hio, hdu⟩ := docOf_some hd
  refine ⟨hash, hg, ?_⟩
  obtain ⟨⟨g1, c, err⟩, hr⟩ := hc
  have herr := getClient_err env g g1 c err hr
  subst herr
  have hmem : d ∈ (run env g users w0 sched).world.docs := by
    rw [h.docs]
    exact List.mem_append_right _ (List.mem_filterMap.2 ⟨i, hins, by simp [insertedDoc, hu, hd]⟩)
  have hfindDoc : (run env g users w0 sched).world.docs.find? (fun x => x.user.ID == u.ID)
      = some d := by
    apply find?_unique _ d _ hmem (by simp [hdu])
    intro y hy hp
    have hyid : y.user.ID = u.ID := by simpa using hp
    rw [h.docs] at hy
    rcases List.mem_append.1 hy with hy0 | hy1
    · exact absurd hyid (hfresh y hy0)
    · obtain ⟨j, hj, hdoc⟩ := List.mem_filterMap.1 hy1
      unfold insertedDoc at hdoc
      cases huj : users[j]? with
      | none => simp [huj] at hdoc
      | some v =>
        simp only [huj] at hdoc
        obtain ⟨hash2, _, _, hyu⟩ := docOf_some hdoc
        have hvid : v.ID = u.ID := by rw [← hyid, hyu]
        have hji := huniq j v huj hvid
        subst hji
        rw [hu] at huj
        cases huj
        rw [hd] at hdoc
        cases hdoc
        rfl
  simp [GetUsersHandler, hr, FindOne, hfind, hfindDoc, hdec, hdu]

theorem step_main_stable (env : Env) (s : State) (a : Action) (h : s.main ≠ .select) :
    (step env s a).main = s.main := by
  cases a with
  | worker i =>
    simp only [step]
    split
    · split <;> rfl
    · split <;> rfl
    · split
      · split <;> rfl
      · rfl
    · rfl
    · rfl
    · rfl
  | waiter =>
    simp only [step]
    split
    · split <;> rfl
    · rfl
    · rfl
  | recvDone =>
    cases hm : s.main with
    | select => exact absurd hm h
    | returned r => simp [step, hm]
    | halted x => simp [step, hm]
  | recvErr i =>
    cases hm : s.main with
    | select => exact absurd hm h
    | returned r => simp [step, hm]
    | halted x => simp [step, hm]

theorem run_snoc (env : Env) (g : Globals) (users : List Users) (w0 : World)
    (sched : List Action) (a : Action) :
    step env (run env g users w0 sched) a = run env g users w0 (sched ++ [a]) := by
  simp [run, exec, List.foldl_append]

end addUsersToDB

namespace AddUsersHandler

theorem fileOK_frame {env : Env} {files : List FileHeader} {i : Nat} {del del2 : Prop}
    {main main2 : MainPC} {pc : FilePC} (h : FileOK env files i del main pc)
    (hd : del2 ↔ del) (hm : main = .returned badRequest → main2 = .returned badRequest) :
    FileOK env files i del2 main2 pc := by
  cases pc with
  | running nf => simpa [FileOK, hd] using h
  | sendQueue u => simpa [FileOK, hd] using h
  | sendErr m => simpa [FileOK, hd] using h
  | exited =>
    rcases h with ⟨h1, h2⟩ | ⟨nf, u, h1, h2, h3⟩ | ⟨nf, e, h1, h2, h3, h4⟩
    · exact Or.inl ⟨h1, by rw [hd]; exact h2⟩
    · exact Or.inr (Or.inl ⟨nf, u, h1, h2, hd.2 h3⟩)
    · exact Or.inr (Or.inr ⟨nf, e, h1, h2, by rw [hd]; exact h3, hm h4⟩)

theorem fileOK_lt {env : Env} {files : List FileHeader} {i : Nat} {del : Prop}
    {main : MainPC} {pc : FilePC} (h : FileOK env files i del main pc)
    (hp : pc ≠ .exited ∨ del) : i < files.length := by
  cases pc with
  | running nf => exact addUsersToDB.getElem?_lt h.1
  | sendQueue u => obtain ⟨nf, hf, _⟩ := h; exact addUsersToDB.getElem?_lt hf
  | sendErr m => obtain ⟨nf, _, hf, _⟩ := h; exact addUsersToDB.getElem?_lt hf
  | exited =>
    rcases h with ⟨_, h2⟩ | ⟨nf, u, h1, _⟩ | ⟨nf, e, h1, _⟩
    · rcases hp with hp | hp
      · exact absurd rfl hp
      · exact absurd hp h2
    · exact addUsersToDB.getElem?_lt h1
    · exact addUsersToDB.getElem?_lt h1

theorem fileOK_not_del {env : Env} {files : List FileHeader} {i : Nat} {del : Prop}
    {main : MainPC} {pc : FilePC} (h : FileOK env files i del main pc)
    {nf : FileHeader} {e : GoErr} (hf : files[i]? = some nf)
    (he : decodeFile env nf = .error e) : ¬del := by
  cases pc with
  | running nf => exact h.2
  | sendQueue u => obtain ⟨_, _, _, hn⟩ := h; exact hn
  | sendErr m => obtain ⟨_, _, _, _, _, hn⟩ := h; exact hn
  | exited =>
    rcases h with ⟨_, h2⟩ | ⟨nf2, u, h1, h2, _⟩ | ⟨_, _, _, _, h3, _⟩
    · exact h2
    · rw [hf] at h1
      cases h1
      rw [he] at h2
      cases h2
    · exact h3

theorem nodup_length_le (l : List Nat) (n : Nat) (hn : l.Nodup) (hl : ∀ i, i ∈ l → i < n) :
    l.length ≤ n := by
  have := (List.subperm_of_subset hn (fun i hi => List.mem_range.2 (hl i hi))).length_le
  simpa using this

theorem HInv.delivered_lt {env : Env} {g : Globals} {w0 : World} {files : List FileHeader}
    {s : State} (h : HInv env g w0 files s) : ∀ i, i ∈ s.delivered → i < files.length :=
  fun i hi => fileOK_lt (h.filesOK i) (Or.inr hi)

theorem HInv.length_le {env : Env} {g : Globals} {w0 : World} {files : List FileHeader}
    {s : State} (h : HInv env g w0 files s) : s.delivered.length ≤ files.length :=
  nodup_length_le _ _ h.nodup h.delivered_lt

theorem HInv.length_lt {env : Env} {g : Globals} {w0 : World} {files : List FileHeader}
    {s : State} (h : HInv env g w0 files s) (i : Nat) (hi : i < files.length)
    (hni : i ∉ s.delivered) : s.delivered.length < files.length := by
  have := nodup_length_le (i :: s.delivered) files.length (List.nodup_cons.2 ⟨hni, h.nodup⟩)
    (fun j hj => by
      rcases List.mem_cons.1 hj with h1 | h1
      · rw [h1]; exact hi
      · exact h.delivered_lt j h1)
  simpa using this

theorem HInv.wg_pos_of_holding {env : Env} {g : Globals} {w0 : World}
    {files : List FileHeader} {s : State} (h : HInv env g w0 files s)
    (hh : 0 < s.agg.holding) : 0 < s.wg := by
  have := h.count
  have := h.length_le
  omega

theorem HInv.call_none_of_holding {env : Env} {g : Globals} {w0 : World}
    {files : List FileHeader} {s : State} (h : HInv env g w0 files s)
    (hh : 0 < s.agg.holding) : s.call = none := by
  cases hc : s.call with
  | none => rfl
  | some c =>
    exfalso
    have hd := (h.callOK c hc).1
    have hw := h.waiter
    have hpos := h.wg_pos_of_holding hh
    cases hwt : s.waiter <;> rw [hwt] at hw
    · exact hw
    · rw [hd] at hw; cases hw
    · rw [hd] at hw; cases hw.2
    · have := hw.1; omega

theorem files_upd {env : Env} {g : Globals} {w0 : World} {files : List FileHeader} {s : State}
    (h : HInv env g w0 files s) (j : Nat) (v : FilePC) (del : List Nat) (main : MainPC)
    (hdel : ∀ i, i ≠ j → (i ∈ del ↔ i ∈ s.delivered))
    (hm : s.main = .returned badRequest → main = .returned badRequest)
    (hj : FileOK env files j (j ∈ del) main v) :
    ∀ i, FileOK env files i (i ∈ del) main (upd s.pc j v i) := by
  intro i
  by_cases hij : i = j
  · subst hij
    rw [upd_same]
    exact hj
  · rw [upd_other _ _ _ _ hij]
    exact fileOK_frame (h.filesOK i) (hdel i hij) hm

theorem recordsOf_ok {env : Env} {files : List FileHeader} {i : Nat} {nf : FileHeader}
    {u : List Users} (hf : files[i]? = some nf) (hd : decodeFile env nf = .ok u) :
    recordsOf env files i = u := by
  simp [recordsOf, decoded, hf, hd]

theorem hinv_file {env : Env} {g : Globals} {w0 : World} {files : List FileHeader} {s : State}
    (h : HInv env g w0 files s) (j : Nat) : HInv env g w0 files (stepLive env g w0 s (.file j)) := by
  have hj := h.filesOK j
  cases hpc : s.pc j with
  | running nf =>
    rw [hpc] at hj
    simp only [stepLive, hpc]
    cases hd : decodeFile env nf with
    | error e =>
      exact ⟨h.launched,
        files_upd h j _ _ _ (fun _ _ => Iff.rfl) id ⟨nf, e, hj.1, hd, rfl, hj.2⟩,
        h.nodup, h.content, h.count, h.queueOpen, h.aggOK, h.waiter, h.mainOK, h.callOK⟩
    | ok u =>
      exact ⟨h.launched,
        files_upd h j _ _ _ (fun _ _ => Iff.rfl) id ⟨nf, hj.1, hd, hj.2⟩,
        h.nodup, h.content, h.count, h.queueOpen, h.aggOK, h.waiter, h.mainOK, h.callOK⟩
  | sendQueue u =>
    rw [hpc] at hj
    obtain ⟨nf, hf, hd, hni⟩ := hj
    simp only [stepLive, hpc]
    split
    · refine ⟨h.launched, ?_, ?_, ?_, ?_, h.queueOpen, h.aggOK, h.waiter, h.mainOK, h.callOK⟩
      · apply files_upd h j _ _ _ (fun i hij => by simp [hij]) id
        exact Or.inr (Or.inl ⟨nf, u, hf, hd, by simp⟩)
      · exact List.Nodup.append h.nodup (List.nodup_singleton j) (by simpa using hni)
      · show (s.delivered ++ [j]).flatMap (recordsOf env files)
          = s.users ++ s.agg.pending ++ (s.queue ++ [u]).flatten
        rw [List.flatMap_append, h.content]
        simp [List.flatMap, recordsOf_ok hf hd]
      · show s.wg + ((s.delivered ++ [j]).length : Int)
          = (files.length : Int) + (s.agg.holding : Int) + ((s.queue ++ [u]).length : Int)
        have := h.count
        simp only [List.length_append, List.length_singleton, Nat.cast_add, Nat.cast_one]
        omega
    · exact h
  | sendErr m => simp only [stepLive, hpc]; exact h
  | exited => simp only [stepLive, hpc]; exact h

theorem hinv_aggregator {env : Env} {g : Globals} {w0 : World} {files : List FileHeader}
    {s : State} (h : HInv env g w0 files s) :
    HInv env g w0 files (stepLive env g w0 s .aggregator) := by
  cases ha : s.agg with
  | receiving =>
    simp only [stepLive, ha]
    cases hq : s.queue with
    | nil =>
      simp only [h.queueOpen]
      exact h
    | cons u rest =>
      simp only
      refine ⟨h.launched, h.filesOK, h.nodup, ?_, ?_, h.queueOpen, by simp, h.waiter, h.mainOK,
        h.callOK⟩
      · have := h.content
        rw [ha, hq] at this
        rw [this]
        simp [AggPC.pending]
      · have := h.count
        rw [ha, hq] at this
        simp only [AggPC.holding, List.length_cons, Nat.cast_add, Nat.cast_one] at this ⊢
        omega
  | appending u =>
    simp only [stepLive, ha]
    have hh : 0 < s.agg.holding := by rw [ha]; simp [AggPC.holding]
    have hcall := h.call_none_of_holding hh
    refine ⟨h.launched, h.filesOK, h.nodup, ?_, ?_, h.queueOpen, by simp, h.waiter, h.mainOK, ?_⟩
    · have := h.content
      rw [ha] at this
      rw [this]
      simp [AggPC.pending]
    · have := h.count
      rw [ha] at this
      simp only [AggPC.holding] at this ⊢
      exact this
    · intro c hc
      rw [hcall] at hc
      cases hc
  | done =>
    simp only [stepLive, ha]
    have hh : 0 < s.agg.holding := by rw [ha]; simp [AggPC.holding]
    have hpos := h.wg_pos_of_holding hh
    refine ⟨h.launched, h.filesOK, h.nodup, ?_, ?_, h.queueOpen, by simp, ?_, h.mainOK, h.callOK⟩
    · have := h.content
      rw [ha] at this
      rw [this]
      simp [AggPC.pending]
    · have := h.count
      rw [ha] at this
      simp only [AggPC.holding, Nat.cast_one, Nat.cast_zero] at this ⊢
      omega
    · have hw := h.waiter
      show addUsersToDB.WaiterOK (s.wg - 1) s.done s.waiter
      cases hwt : s.waiter with
      | absent => rw [hwt] at hw; exact hw
      | waiting => rw [hwt] at hw; exact hw
      | closing => rw [hwt] at hw; exact absurd hw.1 (by omega)
      | exited => rw [hwt] at hw; exact absurd hw.1 (by omega)
  | exited => exact absurd ha h.aggOK

theorem hinv_waiter {env : Env} {g : Globals} {w0 : World} {files : List FileHeader}
    {s : State} (h : HInv env g w0 files s) :
    HInv env g w0 files (stepLive env g w0 s .waiter) := by
  have hw := h.waiter
  cases hwt : s.waiter with
  | absent => simp only [stepLive, hwt]; exact h
  | waiting =>
    rw [hwt] at hw
    simp only [stepLive, hwt]
    split
    · rename_i h0
      exact ⟨h.launched, h.filesOK, h.nodup, h.content, h.count, h.queueOpen, h.aggOK, ⟨h0, hw⟩,
        h.mainOK, h.callOK⟩
    · exact h
  | closing =>
    rw [hwt] at hw
    simp only [stepLive, hwt]
    refine ⟨h.launched, h.filesOK, h.nodup, h.content, h.count, h.queueOpen, h.aggOK,
      ⟨hw.1, rfl⟩, h.mainOK, ?_⟩
    intro c hc
    obtain ⟨_, h2, h3⟩ := h.callOK c hc
    exact ⟨rfl, h2, h3⟩
  | exited => simp only [stepLive, hwt]; exact h

theorem hinv_callDB {env : Env} {g : Globals} {w0 : World} {files : List FileHeader}
    {s : State} (h : HInv env g w0 files s) (hm : s.main = .select) (hd : s.done = true) :
    HInv env g w0 files (callDB env g w0 s) := by
  refine ⟨h.launched, ?_, h.nodup, h.content, h.count, h.queueOpen, h.aggOK, h.waiter, ?_, ?_⟩
  · intro i
    exact fileOK_frame (h.filesOK i) Iff.rfl (fun hx => absurd (hm.symm.trans hx) (by simp))
  · show MainOK env files (some _) .inDB
    simp [MainOK]
  · intro c hc
    simp only [callDB, Option.some.injEq] at hc
    subst hc
    exact ⟨hd, rfl, [], rfl⟩

theorem hinv_recvDone {env : Env} {g : Globals} {w0 : World} {files : List FileHeader}
    {s : State} (h : HInv env g w0 files s) :
    HInv env g w0 files (stepLive env g w0 s .recvDone) := by
  cases hm : s.main with
  | select =>
    simp only [stepLive, hm]
    split
    · rename_i hd
      exact hinv_callDB h hm hd
    · exact h
  | inDB => simp only [stepLive, hm]; exact h
  | returned r => simp only [stepLive, hm]; exact h
  | exited c => simp only [stepLive, hm]; exact h

theorem hinv_recvErr {env : Env} {g : Globals} {w0 : World} {files : List FileHeader}
    {s : State} (h : HInv env g w0 files s) (j : Nat) :
    HInv env g w0 files (stepLive env g w0 s (.recvErr j)) := by
  cases hm : s.main with
  | select =>
    simp only [stepLive, hm]
    have hj := h.filesOK j
    cases hpc : s.pc j with
    | sendErr m =>
      rw [hpc] at hj
      obtain ⟨nf, e, hf, hd, hme, hni⟩ := hj
      subst hme
      simp only [Option.isSome_some, if_true]
      have hcall : s.call = none := by
        have := h.mainOK
        rw [hm] at this
        exact this
      refine ⟨h.launched, ?_, h.nodup, h.content, h.count, h.queueOpen, h.aggOK, h.waiter, ?_,
        h.callOK⟩
      · intro i
        dsimp only
        by_cases hij : i = j
        · subst hij
          rw [upd_same]
          exact Or.inr (Or.inr ⟨nf, e, hf, hd, hni, rfl⟩)
        · rw [upd_other _ _ _ _ hij]
          exact fileOK_frame (h.filesOK i) Iff.rfl (fun hx => absurd (hm.symm.trans hx) (by simp))
      · show MainOK env files s.call (.returned badRequest)
        exact Or.inl ⟨hcall, rfl, j, nf, e, hf, hd⟩
    | running nf => exact h
    | sendQueue u => exact h
    | exited => exact h
  | inDB => simp only [stepLive, hm]; exact h
  | returned r => simp only [stepLive, hm]; exact h
  | exited c => simp only [stepLive, hm]; exact h

theorem hinv_db {env : Env} {g : Globals} {w0 : World} {files : List FileHeader}
    {s : State} (h : HInv env g w0 files s) (b : addUsersToDB.Action) :
    HInv env g w0 files (stepLive env g w0 s (.db b)) := by
  cases hc : s.call with
  | none => simp only [stepLive, hc]; exact h
  | some c =>
    simp only [stepLive, hc]
    obtain ⟨hd, hu, sched, hs⟩ := h.callOK c hc
    refine ⟨h.launched, h.filesOK, h.nodup, h.content, h.count, h.queueOpen, h.aggOK, h.waiter,
      ?_, ?_⟩
    · have hmo := h.mainOK
      rw [hc] at hmo
      show MainOK env files (some _) s.main
      cases hm : s.main with
      | select => simp [hm, MainOK] at hmo
      | inDB => simp [MainOK]
      | returned r =>
        rw [hm] at hmo
        rcases hmo with ⟨h1, _⟩ | ⟨c2, err, h1, h2, h3⟩ | ⟨c2, h1, h2, h3⟩
        · cases h1
        · cases h1
          refine Or.inr (Or.inl ⟨_, err, rfl, ?_, h3⟩)
          show (addUsersToDB.step env c.state b).main = _
          rw [addUsersToDB.step_main_stable env c.state b (by rw [h2]; simp), h2]
        · cases h1
          refine Or.inr (Or.inr ⟨_, rfl, ?_, h3⟩)
          show (addUsersToDB.step env c.state b).main = _
          rw [addUsersToDB.step_main_stable env c.state b (by rw [h2]; simp), h2]
      | exited code =>
        rw [hm] at hmo
        obtain ⟨c2, h1, h2⟩ := hmo
        cases h1
        refine ⟨_, rfl, ?_⟩
        show (addUsersToDB.step env c.state b).main = _
        rw [addUsersToDB.step_main_stable env c.state b (by rw [h2]; simp), h2]
    · intro c2 hc2
      simp only [Option.some.injEq] at hc2
      subst hc2
      refine ⟨hd, hu, sched ++ [b], ?_⟩
      show addUsersToDB.step env c.state b = _
      rw [hs, addUsersToDB.run_snoc]

theorem hinv_finish {env : Env} {g : Globals} {w0 : World} {files : List FileHeader}
    {s : State} (h : HInv env g w0 files s) :
    HInv env g w0 files (stepLive env g w0 s .finish) := by
  cases hm : s.main with
  | inDB =>
    cases hc : s.call with
    | none => simp only [stepLive, hm, hc]; exact h
    | some c =>
      have hfr : ∀ main2, ∀ i, FileOK env files i (i ∈ s.delivered) main2 (s.pc i) :=
        fun main2 i => fileOK_frame (h.filesOK i) Iff.rfl (fun hx => absurd (hm.symm.trans hx) (by simp))
      have hco : CallOK env g w0 s.users s.done (some c) := hc ▸ h.callOK
      simp only [stepLive, hm, hc]
      cases hcm : c.state.main with
      | select => exact h
      | returned err =>
        simp only
        split
        · rename_i he
          refine ⟨h.launched, hfr _, h.nodup, h.content, h.count, h.queueOpen, h.aggOK,
            h.waiter, ?_, hco⟩
          show MainOK env files (some c) (.returned badRequest)
          exact Or.inr (Or.inl ⟨c, err, rfl, hcm, by simp [he]⟩)
        · rename_i he
          refine ⟨h.launched, hfr _, h.nodup, h.content, h.count, h.queueOpen, h.aggOK,
            h.waiter, ?_, hco⟩
          show MainOK env files (some c) (.returned usersAdded)
          exact Or.inr (Or.inl ⟨c, err, rfl, hcm, by simp [he, usersAdded]⟩)
      | halted x =>
        cases x with
        | exit code =>
          simp only
          refine ⟨h.launched, hfr _, h.nodup, h.content, h.count, h.queueOpen, h.aggOK,
            h.waiter, ?_, hco⟩
          show MainOK env files (some c) (.exited code)
          exact ⟨c, rfl, hcm⟩
        | panic =>
          simp only
          refine ⟨h.launched, hfr _, h.nodup, h.content, h.count, h.queueOpen, h.aggOK,
            h.waiter, ?_, hco⟩
          show MainOK env files (some c) (.returned internalServerError)
          exact Or.inr (Or.inr ⟨c, rfl, hcm, rfl⟩)
  | select => simp only [stepLive, hm]; exact h
  | returned r => simp only [stepLive, hm]; exact h
  | exited c => simp only [stepLive, hm]; exact h

theorem hinv_step {env : Env} {g : Globals} {w0 : World} {files : List FileHeader}
    {s : State} (h : HInv env g w0 files s) (a : Action) :
    HInv env g w0 files (step env g w0 s a) := by
  have hl : HInv env g w0 files (stepLive env g w0 s a) := by
    cases a with
    | file j => exact hinv_file h j
    | aggregator => exact hinv_aggregator h
    | waiter => exact hinv_waiter h
    | recvDone => exact hinv_recvDone h
    | recvErr j => exact hinv_recvErr h j
    | db b => exact hinv_db h b
    | finish => exact hinv_finish h
  unfold step
  split
  · exact h
  · exact hl

theorem hinv_exec {env : Env} {g : Globals} {w0 : World} {files : List FileHeader}
    (sched : List Action) :
    ∀ {s : State}, HInv env g w0 files s → HInv env g w0 files (exec env g w0 s sched) := by
  induction sched with
  | nil => intro s h; exact h
  | cons a rest ih => intro s h; exact ih (hinv_step h a)

theorem hinv_init (env : Env) (g : Globals) (w0 : World) (files : List FileHeader) :
    HInv env g w0 files (init (.ok files)) := by
  refine ⟨rfl, ?_, List.nodup_nil, by simp [init, AggPC.pending], by simp [init, AggPC.holding],
    rfl, by simp [init], rfl, rfl, ?_⟩
  · intro i
    simp only [init, launch]
    cases hf : files[i]? with
    | none => exact Or.inl ⟨hf, by simp⟩
    | some nf => exact ⟨hf, by simp⟩
  · intro c hc
    cases hc

theorem hinv_run (env : Env) (g : Globals) (w0 : World) (files : List FileHeader)
    (sched : List Action) : HInv env g w0 files (run env g w0 (.ok files) sched) :=
  hinv_exec sched (hinv_init env g w0 files)

theorem step_of_live {env : Env} {g : Globals} {w0 : World} {s : State} (a : Action)
    (h : ∀ c, s.main ≠ .exited c) : step env g w0 s a = stepLive env g w0 s a := by
  unfold step
  split
  · rename_i c hc
    exact absurd hc (h c)
  · rfl

theorem enabled_live {s : State} (a : Action) (h : enabled s a = true) :
    (∀ c, s.main ≠ .exited c) ∧ enabledLive s a = true := by
  unfold enabled at h
  split at h
  · cases h
  · rename_i hne
    exact ⟨fun c hc => hne c hc, h⟩

theorem not_enabled_live {s : State} (a : Action) (hm : ∀ c, s.main ≠ .exited c)
    (h : enabled s a = false) : enabledLive s a = false := by
  unfold enabled at h
  split at h
  · rename_i c hc
    exact absurd hc (hm c)
  · exact h

/-- The state of the `addUsersToDB` call satisfies the fan-out invariant, or the
call stopped in `GetMongoDBClient`. -/
theorem HInv.call_cases {env : Env} {g : Globals} {w0 : World} {files : List FileHeader}
    {s : State} (h : HInv env g w0 files s) {c : Call} (hc : s.call = some c) :
    (addUsersToDB.Inv env c.users w0 c.state ∧ ∃ r, GetMongoDBClient env g = .ret r)
    ∨ ((∃ x, c.state = addUsersToDB.stopped c.users w0 (.halted x))
        ∧ ¬ ∃ r, GetMongoDBClient env g = .ret r) := by
  obtain ⟨_, _, sched, hs⟩ := h.callOK c hc
  by_cases hcl : ∃ r, GetMongoDBClient env g = .ret r
  · exact Or.inl ⟨hs ▸ addUsersToDB.inv_run env g c.users w0 sched hcl, hcl⟩
  · obtain ⟨x, hx⟩ := addUsersToDB.run_stopped env g c.users w0 sched hcl
    exact Or.inr ⟨⟨x, hs.trans hx⟩, hcl⟩

theorem decreases_of_budget {t s : State} (hp : t.main = s.main) (hb : budget t < budget s) :
    decreases t s :=
  Or.inr ⟨by simp [phase, hp], hb⟩

theorem hinv_decreases {env : Env} {g : Globals} {w0 : World} {files : List FileHeader}
    {s : State} (h : HInv env g w0 files s) (a : Action) (he : enabled s a = true) :
    decreases (step env g w0 s a) s := by
  obtain ⟨hlive, hel⟩ := enabled_live a he
  rw [step_of_live a hlive]
  cases a with
  | file j =>
    have hj := h.filesOK j
    cases hpc : s.pc j with
    | running nf =>
      have hlt : j < s.launched := by
        rw [h.launched]
        exact fileOK_lt hj (Or.inl (by simp [hpc]))
      simp only [stepLive, hpc]
      cases decodeFile env nf with
      | error e =>
        dsimp only
        refine Or.inr ⟨rfl, ?_⟩
        have := sumTo_comp_upd FilePC.weight s.pc j (.sendErr (some e)) s.launched hlt
        rw [hpc] at this
        simp only [budget, FilePC.weight] at this ⊢
        omega
      | ok u =>
        dsimp only
        refine Or.inr ⟨rfl, ?_⟩
        have := sumTo_comp_upd FilePC.weight s.pc j (.sendQueue u) s.launched hlt
        rw [hpc] at this
        simp only [budget, FilePC.weight] at this ⊢
        omega
    | sendQueue u =>
      have hlt : j < s.launched := by
        rw [h.launched]
        exact fileOK_lt hj (Or.inl (by simp [hpc]))
      simp only [enabledLive, hpc, decide_eq_true_eq] at hel
      simp only [stepLive, hpc, hel, if_true]
      refine Or.inr ⟨rfl, ?_⟩
      have := sumTo_comp_upd FilePC.weight s.pc j .exited s.launched hlt
      rw [hpc] at this
      simp only [budget, FilePC.weight, List.length_append, List.length_singleton] at this ⊢
      omega
    | sendErr m => simp [enabledLive, hpc] at hel
    | exited => simp [enabledLive, hpc] at hel
  | aggregator =>
    cases ha : s.agg with
    | receiving =>
      cases hq : s.queue with
      | nil => simp [enabledLive, ha, hq, h.queueOpen] at hel
      | cons u rest =>
        simp only [stepLive, ha, hq]
        refine Or.inr ⟨rfl, ?_⟩
        simp only [budget, AggPC.weight, List.length_cons, ha, hq]
        omega
    | appending u =>
      simp only [stepLive, ha]
      refine Or.inr ⟨rfl, ?_⟩
      simp only [budget, AggPC.weight, ha]
      omega
    | done =>
      simp only [stepLive, ha]
      refine Or.inr ⟨rfl, ?_⟩
      simp only [budget, AggPC.weight, ha]
      omega
    | exited => exact absurd ha h.aggOK
  | waiter =>
    cases hw : s.waiter with
    | absent => simp [enabledLive, hw] at hel
    | waiting =>
      simp only [enabledLive, hw, beq_iff_eq] at hel
      simp only [stepLive, hw, hel, if_true]
      refine Or.inr ⟨rfl, ?_⟩
      simp only [budget, WaiterPC.weight, hw]
      omega
    | closing =>
      simp only [stepLive, hw]
      refine Or.inr ⟨rfl, ?_⟩
      simp only [budget, WaiterPC.weight, hw]
      omega
    | exited => simp [enabledLive, hw] at hel
  | recvDone =>
    cases hm : s.main with
    | select =>
      simp only [enabledLive, hm] at hel
      simp only [stepLive, hm, hel, if_true]
      exact Or.inl (by simp [phase, callDB, hm])
    | inDB => simp [enabledLive, hm] at hel
    | returned r => simp [enabledLive, hm] at hel
    | exited c => simp [enabledLive, hm] at hel
  | recvErr j =>
    cases hm : s.main with
    | select =>
      cases hpc : s.pc j with
      | sendErr m =>
        simp only [stepLive, hm, hpc]
        split
        · exact Or.inl (by simp [phase, hm])
        · exact Or.inl (by simp [phase, callDB, hm])
      | running nf => simp [enabledLive, hm, hpc] at hel
      | sendQueue u => simp [enabledLive, hm, hpc] at hel
      | exited => simp [enabledLive, hm, hpc] at hel
    | inDB => simp [enabledLive, hm] at hel
    | returned r => simp [enabledLive, hm] at hel
    | exited c => simp [enabledLive, hm] at hel
  | db b =>
    cases hc : s.call with
    | none => simp [enabledLive, hc] at hel
    | some c =>
      simp only [enabledLive, hc] at hel
      simp only [stepLive, hc]
      refine Or.inr ⟨rfl, ?_⟩
      have hdec : addUsersToDB.measure (addUsersToDB.step env c.state b)
          < addUsersToDB.measure c.state := by
        rcases h.call_cases hc with ⟨hinv, _⟩ | ⟨⟨x, hx⟩, _⟩
        · exact addUsersToDB.inv_measure_decreases hinv b hel
        · rw [hx] at hel
          cases b <;> simp [addUsersToDB.enabled, addUsersToDB.stopped] at hel
      simp only [budget, hc]
      omega
  | finish =>
    cases hm : s.main with
    | inDB =>
      cases hc : s.call with
      | none => simp [enabledLive, hm, hc] at hel
      | some c =>
        simp only [stepLive, hm, hc]
        cases hcm : c.state.main with
        | select => simp [enabledLive, hm, hc, hcm] at hel
        | returned err =>
          simp only
          split <;>
          · refine Or.inr ⟨by simp [phase, hm], ?_⟩
            simp only [budget, hm, hc]
            omega
        | halted x =>
          cases x with
          | exit code =>
            refine Or.inr ⟨by simp [phase, hm], ?_⟩
            simp only [budget, hm, hc]
            omega
          | panic =>
            refine Or.inr ⟨by simp [phase, hm], ?_⟩
            simp only [budget, hm, hc]
            omega
    | select => simp [enabledLive, hm] at hel
    | returned r => simp [enabledLive, hm] at hel
    | exited c => simp [enabledLive, hm] at hel

end AddUsersHandler

theorem flatMap_range_getElem? {α β : Type} (f : Option α → List β) :
    ∀ l : List α, (List.range l.length).flatMap (fun i => f l[i]?)
      = l.flatMap (fun a => f (some a)) := by
  intro l
  induction l with
  | nil => rfl
  | cons a rest ih =>
    rw [List.length_cons, List.range_succ_eq_map, List.flatMap_cons, List.flatMap_cons,
      List.flatMap_map]
    simp only [List.getElem?_cons_zero, List.getElem?_cons_succ]
    rw [ih]

namespace AddUsersHandler

theorem flatMap_recordsOf (env : Env) (files : List FileHeader) :
    (List.range files.length).flatMap (recordsOf env files) = files.flatMap (decoded env) := by
  induction files with
  | nil => rfl
  | cons a rest ih =>
    rw [List.length_cons, List.range_succ_eq_map, List.flatMap_cons, List.flatMap_cons,
      List.flatMap_map]
    have h0 : recordsOf env (a :: rest) 0 = decoded env a := by simp [recordsOf]
    have h1 : (fun i => recordsOf env (a :: rest) (Nat.succ i)) = recordsOf env rest := by
      funext i
      simp [recordsOf]
    rw [h0, ← ih, h1]

theorem HInv.after_done {env : Env} {g : Globals} {w0 : World} {files : List FileHeader}
    {s : State} (h : HInv env g w0 files s) (hd : s.done = true) :
    s.delivered.Perm (List.range files.length)
    ∧ s.users = s.delivered.flatMap (recordsOf env files)
    ∧ s.queue = [] ∧ s.agg = .receiving ∧ (∀ i, s.pc i = .exited) ∧ s.waiter = .exited := by
  have hw := h.waiter
  have hwt : s.waiter = .exited ∧ s.wg = 0 := by
    cases hx : s.waiter <;> rw [hx] at hw
    · exact absurd hw id
    · rw [hd] at hw; cases hw
    · rw [hd] at hw; cases hw.2
    · exact ⟨rfl, hw.1⟩
  have hcount := h.count
  have hle := h.length_le
  have hlen : s.delivered.length = files.length := by omega
  have hq : s.queue = [] := List.length_eq_zero.1 (by omega)
  have hhold : s.agg.holding = 0 := by omega
  have hagg : s.agg = .receiving := by
    cases ha : s.agg with
    | receiving => rfl
    | appending u => rw [ha] at hhold; simp [AggPC.holding] at hhold
    | done => rw [ha] at hhold; simp [AggPC.holding] at hhold
    | exited => exact absurd ha h.aggOK
  have hperm : s.delivered.Perm (List.range files.length) :=
    (List.subperm_of_subset h.nodup
      (fun i hi => List.mem_range.2 (h.delivered_lt i hi))).perm_of_length_le
      (by simp [hlen])
  refine ⟨hperm, ?_, hq, hagg, ?_, hwt.1⟩
  · have := h.content
    rw [hagg, hq] at this
    simpa [AggPC.pending] using this.symm
  · intro i
    by_contra hne
    have hf := h.filesOK i
    have hlt := fileOK_lt hf (Or.inl hne)
    have hni : i ∉ s.delivered := by
      cases hpc : s.pc i <;> rw [hpc] at hf
      · exact hf.2
      · obtain ⟨_, _, _, hn⟩ := hf; exact hn
      · obtain ⟨_, _, _, _, _, hn⟩ := hf; exact hn
      · exact absurd hpc hne
    have := h.length_lt i hlt hni
    omega

theorem quiescent_live {s : State} (hq : quiescent s = true) (hm : ∀ c, s.main ≠ .exited c) :
    (∀ i, i < s.launched →
        enabledLive s (.file i) = false ∧ enabledLive s (.recvErr i) = false)
    ∧ enabledLive s .aggregator = false ∧ enabledLive s .waiter = false
    ∧ enabledLive s .recvDone = false ∧ enabledLive s .finish = false
    ∧ (∀ c, s.call = some c → addUsersToDB.quiescent c.state = true) := by
  simp only [quiescent, Bool.and_eq_true, List.all_eq_true, List.mem_range,
    Bool.not_eq_true'] at hq
  obtain ⟨⟨⟨⟨⟨h1, h2⟩, h3⟩, h4⟩, h5⟩, h6⟩ := hq
  refine ⟨fun i hi => ⟨not_enabled_live _ hm (h1 i hi).1, not_enabled_live _ hm (h1 i hi).2⟩,
    not_enabled_live _ hm h2, not_enabled_live _ hm h3, not_enabled_live _ hm h4,
    not_enabled_live _ hm h5, ?_⟩
  intro c hc
  rw [hc] at h6
  cases hmm : s.main with
  | exited code => exact absurd hmm (hm code)
  | select => simpa [hmm] using h6
  | inDB => simpa [hmm] using h6
  | returned r => simpa [hmm] using h6

theorem hinv_quiescent_not_select {env : Env} {g : Globals} {w0 : World}
    {files : List FileHeader} {s : State} (h : HInv env g w0 files s)
    (hq : quiescent s = true) : s.main ≠ .select := by
  intro hm
  obtain ⟨hfiles, hagg, hwaiter, hdone, _, _⟩ :=
    quiescent_live hq (fun c hc => by rw [hm] at hc; cases hc)
  have hqe : s.queue = [] ∧ s.agg = .receiving := by
    cases ha : s.agg with
    | receiving =>
      cases hqq : s.queue with
      | nil => exact ⟨rfl, rfl⟩
      | cons u rest => simp [enabledLive, ha, hqq] at hagg
    | appending u => simp [enabledLive, ha] at hagg
    | done => simp [enabledLive, ha] at hagg
    | exited => exact absurd ha h.aggOK
  have hall : ∀ i, i < files.length → i ∈ s.delivered := by
    intro i hi
    have hf := h.filesOK i
    have hen := hfiles i (by rw [h.launched]; exact hi)
    cases hpc : s.pc i <;> rw [hpc] at hf
    · simp [enabledLive, hpc] at hen
    · simp [enabledLive, hpc, hqe.1] at hen
    · simp [enabledLive, hpc, hm] at hen
    · rcases hf with ⟨hn, _⟩ | ⟨_, _, _, _, hdel⟩ | ⟨_, _, _, _, _, hmm⟩
      · rw [List.getElem?_eq_getElem hi] at hn
        cases hn
      · exact hdel
      · rw [hm] at hmm
        cases hmm
  have hlen : files.length ≤ s.delivered.length := by
    have := (List.subperm_of_subset (List.nodup_range files.length)
      (fun i hi => hall i (List.mem_range.1 hi))).length_le
    simpa using this
  have hcount := h.count
  have hle := h.length_le
  have hwg : s.wg = 0 := by
    rw [hqe.1, hqe.2] at hcount
    simp only [AggPC.holding, List.length_nil, Nat.cast_zero, add_zero] at hcount
    omega
  have hw := h.waiter
  cases hwt : s.waiter <;> rw [hwt] at hw
  · exact hw
  · simp [enabledLive, hwt, hwg] at hwaiter
  · simp [enabledLive, hwt] at hwaiter
  · simp [enabledLive, hm, hw.2] at hdone

theorem hinv_quiescent_not_inDB {env : Env} {g : Globals} {w0 : World}
    {files : List FileHeader} {s : State} (h : HInv env g w0 files s)
    (hq : quiescent s = true) : s.main ≠ .inDB := by
  intro hm
  obtain ⟨_, _, _, _, hfin, hcq⟩ :=
    quiescent_live hq (fun c hc => by rw [hm] at hc; cases hc)
  have hmo := h.mainOK
  rw [hm] at hmo
  cases hc : s.call with
  | none => exact hmo hc
  | some c =>
    have hsel : c.state.main = .select := by
      cases hcm : c.state.main with
      | select => rfl
      | returned r => simp [enabledLive, hm, hc, hcm] at hfin
      | halted x => simp [enabledLive, hm, hc, hcm] at hfin
    rcases h.call_cases hc with ⟨hinv, _⟩ | ⟨⟨x, hx⟩, _⟩
    · obtain ⟨r, hr⟩ := addUsersToDB.inv_returned_of_quiescent hinv (hcq c hc)
      rw [hsel] at hr
      cases hr
    · rw [hx] at hsel
      simp [addUsersToDB.stopped] at hsel

theorem hinv_quiescent_returned {env : Env} {g : Globals} {w0 : World}
    {files : List FileHeader} {s : State} (h : HInv env g w0 files s)
    (hq : quiescent s = true) (hcl : ∃ r, GetMongoDBClient env g = .ret r) :
    ∃ r, s.main = .returned r := by
  cases hm : s.main with
  | select => exact absurd hm (hinv_quiescent_not_select h hq)
  | inDB => exact absurd hm (hinv_quiescent_not_inDB h hq)
  | returned r => exact ⟨r, rfl⟩
  | exited code =>
    exfalso
    have hmo := h.mainOK
    rw [hm] at hmo
    obtain ⟨c, hc, hcm⟩ := hmo
    rcases h.call_cases hc with ⟨hinv, _⟩ | ⟨_, hn⟩
    · have := hinv.main
      rw [hcm] at this
      exact this
    · exact hn hcl

theorem henabled_of_not_quiescent {s : State} (hq : quiescent s = false) :
    ∃ a, enabled s a = true := by
  by_contra hno
  have hall : ∀ a, enabled s a = false := by
    intro a
    cases h : enabled s a with
    | false => rfl
    | true => exact absurd ⟨a, h⟩ hno
  have hb : ∀ c, s.call = some c → (∀ code, s.main ≠ .exited code) →
      addUsersToDB.quiescent c.state = true := by
    intro c hc hm
    apply addUsersToDB.quiescent_of_all_disabled
    intro b
    have := not_enabled_live (.db b) hm (hall (.db b))
    simpa [enabledLive, hc] using this
  have : quiescent s = true := by
    unfold quiescent
    cases hc : s.call with
    | none => cases hm : s.main <;> simp [hall]
    | some c =>
      cases hm : s.main with
      | exited code => simp [hall]
      | select => simpa [hall] using hb c hc (by simp [hm])
      | inDB => simpa [hall] using hb c hc (by simp [hm])
      | returned r => simpa [hall] using hb c hc (by simp [hm])
  rw [this] at hq
  cases hq

theorem hcan_finish {env : Env} {g : Globals} {w0 : World} {files : List FileHeader} :
    ∀ (p b : Nat) (s : State), HInv env g w0 files s → phase s ≤ p → budget s ≤ b →
      ∃ more, quiescent (exec env g w0 s more) = true := by
  intro p
  induction p with
  | zero =>
    intro b
    induction b with
    | zero =>
      intro s h hp hb
      cases hq : quiescent s with
      | true => exact ⟨[], hq⟩
      | false =>
        obtain ⟨a, ha⟩ := henabled_of_not_quiescent hq
        rcases hinv_decreases h a ha with hd | ⟨_, hd⟩ <;> omega
    | succ k ih =>
      intro s h hp hb
      cases hq : quiescent s with
      | true => exact ⟨[], hq⟩
      | false =>
        obtain ⟨a, ha⟩ := henabled_of_not_quiescent hq
        rcases hinv_decreases h a ha with hd | ⟨hd1, hd2⟩
        · omega
        · obtain ⟨more, hmore⟩ := ih (step env g w0 s a) (hinv_step h a) (by omega) (by omega)
          exact ⟨a :: more, hmore⟩
  | succ q ihp =>
    intro b
    induction b with
    | zero =>
      intro s h hp hb
      cases hq : quiescent s with
      | true => exact ⟨[], hq⟩
      | false =>
        obtain ⟨a, ha⟩ := henabled_of_not_quiescent hq
        rcases hinv_decreases h a ha with hd | ⟨_, hd⟩
        · obtain ⟨more, hmore⟩ := ihp (budget (step env g w0 s a)) (step env g w0 s a)
            (hinv_step h a) (by omega) (le_refl _)
          exact ⟨a :: more, hmore⟩
        · omega
    | succ k ih =>
      intro s h hp hb
      cases hq : quiescent s with
      | true => exact ⟨[], hq⟩
      | false =>
        obtain ⟨a, ha⟩ := henabled_of_not_quiescent hq
        rcases hinv_decreases h a ha with hd | ⟨hd1, hd2⟩
        · obtain ⟨more, hmore⟩ := ihp (budget (step env g w0 s a)) (step env g w0 s a)
            (hinv_step h a) (by omega) (le_refl _)
          exact ⟨a :: more, hmore⟩
        · obtain ⟨more, hmore⟩ := ih (step env g w0 s a) (hinv_step h a) (by omega) (by omega)
          exact ⟨a :: more, hmore⟩

theorem hrun_append (env : Env) (g : Globals) (w0 : World) (form : Except GoErr (List FileHeader))
    (sched more : List Action) :
    run env g w0 form (sched ++ more) = exec env g w0 (run env g w0 form sched) more := by
  simp [run, exec, List.foldl_append]

theorem hrun_can_finish (env : Env) (g : Globals) (w0 : World) (files : List FileHeader)
    (sched : List Action) :
    ∃ more, quiescent (run env g w0 (.ok files) (sched ++ more)) = true := by
  obtain ⟨more, hq⟩ := hcan_finish _ _ _ (hinv_run env g w0 files sched) (le_refl _) (le_refl _)
  exact ⟨more, by rw [hrun_append]; exact hq⟩

theorem all_ok_index {env : Env} {files : List FileHeader}
    (hok : ∀ nf, nf ∈ files → ∃ u, decodeFile env nf = .ok u) :
    ¬ ∃ (i : Nat) (nf : FileHeader) (e : GoErr),
      files[i]? = some nf ∧ decodeFile env nf = .error e := by
  rintro ⟨i, nf, e, hf, he⟩
  obtain ⟨u, hu⟩ := hok nf (List.getElem?_mem hf)
  rw [hu] at he
  cases he

theorem HInv.call_of_all_ok {env : Env} {g : Globals} {w0 : World} {files : List FileHeader}
    {s : State} (h : HInv env g w0 files s)
    (hok : ∀ nf, nf ∈ files → ∃ u, decodeFile env nf = .ok u)
    (hq : quiescent s = true) : s.call ≠ none := by
  intro hc
  have hmo := h.mainOK
  cases hm : s.main with
  | select => exact hinv_quiescent_not_select h hq hm
  | inDB => exact hinv_quiescent_not_inDB h hq hm
  | returned r =>
    rw [hm, hc] at hmo
    rcases hmo with ⟨_, _, hbad⟩ | ⟨c, _, h1, _⟩ | ⟨c, h1, _⟩
    · exact all_ok_index hok hbad
    · cases h1
    · cases h1
  | exited code =>
    rw [hm, hc] at hmo
    obtain ⟨c, h1, _⟩ := hmo
    cases h1

theorem error_path_facts (env : Env) (g : Globals) (w0 : World) (files : List FileHeader)
    (sched : List Action) (nf : FileHeader) (e : GoErr) (hmem : nf ∈ files)
    (he : decodeFile env nf = .error e) :
    (run env g w0 (.ok files) sched).call = none
    ∧ worldOf w0 (run env g w0 (.ok files) sched) = w0
    ∧ (run env g w0 (.ok files) sched).done = false
    ∧ (∀ r, (run env g w0 (.ok files) sched).main = .returned r → r = badRequest)
    ∧ (quiescent (run env g w0 (.ok files) sched) = true →
        (run env g w0 (.ok files) sched).main = .returned badRequest)
    ∧ (∀ a, enabled (run env g w0 (.ok files) sched) a = true →
        decreases (step env g w0 (run env g w0 (.ok files) sched) a)
          (run env g w0 (.ok files) sched)) := by
  have h := hinv_run env g w0 files sched
  obtain ⟨i, hi, hget⟩ := List.getElem_of_mem hmem
  have hf : files[i]? = some nf := by rw [List.getElem?_eq_getElem hi, hget]
  have hni := fileOK_not_del (h.filesOK i) hf he
  have hlen := h.length_lt i hi hni
  have hcount := h.count
  have hwg : 0 < (run env g w0 (.ok files) sched).wg := by omega
  have hdone : (run env g w0 (.ok files) sched).done = false := by
    have hw := h.waiter
    cases hwt : (run env g w0 (.ok files) sched).waiter <;> rw [hwt] at hw
    · exact absurd hw id
    · exact hw
    · exact absurd hw.1 (by omega)
    · exact absurd hw.1 (by omega)
  have hcall : (run env g w0 (.ok files) sched).call = none := by
    cases hc : (run env g w0 (.ok files) sched).call with
    | none => rfl
    | some c =>
      have := (h.callOK c hc).1
      rw [hdone] at this
      cases this
  have hret : ∀ r, (run env g w0 (.ok files) sched).main = .returned r → r = badRequest := by
    intro r hr
    have hmo := h.mainOK
    rw [hr, hcall] at hmo
    rcases hmo with ⟨_, h2, _⟩ | ⟨c, _, h1, _⟩ | ⟨c, h1, _⟩
    · exact h2
    · cases h1
    · cases h1
  refine ⟨hcall, by simp [worldOf, hcall], hdone, hret, ?_, fun a ha => hinv_decreases h a ha⟩
  intro hq
  have hmo := h.mainOK
  cases hm : (run env g w0 (.ok files) sched).main with
  | select => exact absurd hm (hinv_quiescent_not_select h hq)
  | inDB => exact absurd hm (hinv_quiescent_not_inDB h hq)
  | returned r => rw [hret r hm]
  | exited code =>
    rw [hm, hcall] at hmo
    obtain ⟨c, h1, _⟩ := hmo
    cases h1

/-- C2 (orchestrator error path). For every upload in which some file fails to
open, read or decode, and for every schedule: `addUsersToDB` is never called, so
the documents and payload files are those of before the request; `done` is never
closed; the only response the handler can give is the 400 error response, and it
gives it: a run in which nothing can move any more has answered 400, every step
decreases the measure, and every run can be continued to one that has answered
400. -/
theorem error_path_never_persists (env : Env) (g : Globals) (w0 : World) (files : List FileHeader)
    (sched : List Action) (nf : FileHeader) (e : GoErr) (hmem : nf ∈ files)
    (he : decodeFile env nf = .error e) :
    (run env g w0 (.ok files) sched).call = none
    ∧ worldOf w0 (run env g w0 (.ok files) sched) = w0
    ∧ (run env g w0 (.ok files) sched).done = false
    ∧ (∀ r, (run env g w0 (.ok files) sched).main = .returned r → r = badRequest)
    ∧ (quiescent (run env g w0 (.ok files) sched) = true →
        (run env g w0 (.ok files) sched).main = .returned badRequest)
    ∧ (∀ a, enabled (run env g w0 (.ok files) sched) a = true →
        decreases (step env g w0 (run env g w0 (.ok files) sched) a)
          (run env g w0 (.ok files) sched))
    ∧ (∃ more, (run env g w0 (.ok files) (sched ++ more)).main = .returned badRequest) := by
  obtain ⟨h1, h2, h3, h4, h5, h6⟩ := error_path_facts env g w0 files sched nf e hmem he
  obtain ⟨more, hq⟩ := hrun_can_finish env g w0 files sched
  exact ⟨h1, h2, h3, h4, h5, h6, more,
    (error_path_facts env g w0 files (sched ++ more) nf e hmem he).2.2.2.2.1 hq⟩

/-- C10 as amended. For every upload request whose client check succeeds and every
schedule: the aggregator goroutine never terminates (nobody closes `queue`); the
handler itself always returns (a run in which nothing can move any more has
responded, every step decreases the measure, and every run can be continued to
one that has responded); and when every file decodes and every record of the
request (every element of the decoded lists of `files`) persists, whichever
worker handles it, then once nothing can move any more the handler has answered
200 and every other goroutine (per-file decoders, both waiters, per-record
workers) has exited, the aggregator being at its receive. -/
theorem goroutines_amended (env : Env) (g : Globals) (w0 : World) (files : List FileHeader)
    (sched : List Action) (hcl : ∃ r, GetMongoDBClient env g = .ret r) :
    (run env g w0 (.ok files) sched).agg ≠ .exited
    ∧ (quiescent (run env g w0 (.ok files) sched) = true →
        ∃ r, (run env g w0 (.ok files) sched).main = .returned r)
    ∧ (∀ a, enabled (run env g w0 (.ok files) sched) a = true →
        decreases (step env g w0 (run env g w0 (.ok files) sched) a)
          (run env g w0 (.ok files) sched))
    ∧ (∃ more r, (run env g w0 (.ok files) (sched ++ more)).main = .returned r)
    ∧ ((∀ nf, nf ∈ files → ∃ u, decodeFile env nf = .ok u) →
        (∀ i u, u ∈ files.flatMap (decoded env) → addUsersToDB.workerErr env i u = none) →
        quiescent (run env g w0 (.ok files) sched) = true →
        (run env g w0 (.ok files) sched).main = .returned usersAdded
        ∧ (∀ i, (run env g w0 (.ok files) sched).pc i = .exited)
        ∧ (run env g w0 (.ok files) sched).waiter = .exited
        ∧ (run env g w0 (.ok files) sched).agg = .receiving
        ∧ ∃ c, (run env g w0 (.ok files) sched).call = some c
            ∧ (∀ j, c.state.pc j = .exited) ∧ c.state.waiter = .exited) := by
  have h := hinv_run env g w0 files sched
  have hex : ∃ more r, (run env g w0 (.ok files) (sched ++ more)).main = .returned r := by
    obtain ⟨more, hq⟩ := hrun_can_finish env g w0 files sched
    obtain ⟨r, hr⟩ := hinv_quiescent_returned (hinv_run env g w0 files (sched ++ more)) hq hcl
    exact ⟨more, r, hr⟩
  refine ⟨h.aggOK, fun hq => hinv_quiescent_returned h hq hcl,
    fun a ha => hinv_decreases h a ha, hex, ?_⟩
  intro hok hworkers hq
  obtain ⟨r, hr⟩ := hinv_quiescent_returned h hq hcl
  have hcall := h.call_of_all_ok hok hq
  have hmo := h.mainOK
  rw [hr] at hmo
  rcases hmo with ⟨h1, _⟩ | ⟨c, err, hc, hcm, hre⟩ | ⟨c, hc, hcm, _⟩
  · exact absurd h1 hcall
  · obtain ⟨hd, hcu, _⟩ := h.callOK c hc
    obtain ⟨hperm, husers, _, hagg, hpcs, hwt⟩ := h.after_done hd
    rcases h.call_cases hc with ⟨hinv, _⟩ | ⟨_, hn⟩
    · have herr : err = none := by
        cases err with
        | none => rfl
        | some e =>
          have := hinv.main
          rw [hcm] at this
          obtain ⟨i, u, hu, hwe⟩ := this
          have hmem : u ∈ files.flatMap (decoded env) := by
            have h1 : u ∈ c.users := List.getElem?_mem hu
            rw [hcu, husers] at h1
            rw [← flatMap_recordsOf]
            exact (List.Perm.flatMap_right _ hperm).mem_iff.1 h1
          rw [hworkers i u hmem] at hwe
          cases hwe
      subst herr
      have hdd : c.state.done = true := by
        have := hinv.main
        rw [hcm] at this
        exact this
      have hww : c.state.waiter = .exited := by
        have hw := hinv.waiter
        cases hx : c.state.waiter <;> rw [hx] at hw
        · exact absurd hw id
        · rw [hdd] at hw; cases hw
        · rw [hdd] at hw; cases hw.2
      refine ⟨by rw [hr, hre]; rfl, hpcs, hwt, hagg, c, hc,
        (addUsersToDB.inv_returned_nil hinv hcm).1, hww⟩
    · exact absurd hcl hn
  · rcases h.call_cases hc with ⟨hinv, _⟩ | ⟨_, hn⟩
    · have := hinv.main
      rw [hcm] at this
      exact absurd this id
    · exact absurd hcl hn

end AddUsersHandler

theorem getClient_ret {env : Env} {g : Globals} (hcl : ∃ r, GetMongoDBClient env g = .ret r) :
    ∃ g1 c, GetMongoDBClient env g = .ret (g1, c, none) := by
  obtain ⟨⟨g1, c, err⟩, hr⟩ := hcl
  have := addUsersToDB.getClient_err env g g1 c err hr
  subst this
  exact ⟨g1, c, hr⟩

/-- In a process that has connected, a failing `Ping` makes `GetMongoDBClient`, and
with it every handler that calls it, end the process with status 1. -/
theorem ping_failure_is_fatal (env : Env) (g : Globals) (c : Client) (e : GoErr) (w : World)
    (id : String) (h1 : g.onceDone = true) (h2 : g.mongoClient = some c)
    (h3 : env.Ping = some e) :
    GetMongoDBClient env g = .exit 1
    ∧ GetUsersHandler env g w id = .exit 1
    ∧ GetUsersListHandler env g w = .exit 1
    ∧ DeleteUserHandler env g w id = .exit 1 := by
  have hg : GetMongoDBClient env g = .exit 1 := by
    simp [GetMongoDBClient, h1, h2, h3]
  simp [GetUsersHandler, GetUsersListHandler, DeleteUserHandler, hg]

/-- C8 (delete of a nonexistent identifier). For every world and every `id` that
matches no document, with the store reachable and `DeleteOne` itself not
failing: `DeleteUserHandler` answers 200 with body success "deleted" and leaves
the world (documents and payload files) unchanged; hence repeating the delete
gives the same response and the same world. -/
theorem delete_nonexistent (env : Env) (g : Globals) (w : World) (id : String)
    (hcl : ∃ r, GetMongoDBClient env g = .ret r) (hdel : env.DeleteOne = none)
    (hno : ∀ d, d ∈ w.docs → d.user.ID ≠ id) :
    DeleteUserHandler env g w id = .ret (⟨200, .success "deleted"⟩, w)
    ∧ ∀ g2 r w1, DeleteUserHandler env g w id = .ret (r, w1) →
        (∃ x, GetMongoDBClient env g2 = .ret x) →
        w1 = w ∧ DeleteUserHandler env g2 w1 id = .ret (r, w1) := by
  have key : ∀ g2, (∃ x, GetMongoDBClient env g2 = .ret x) →
      DeleteUserHandler env g2 w id = .ret (⟨200, .success "deleted"⟩, w) := by
    intro g2 h2
    obtain ⟨g1, c, hr⟩ := getClient_ret h2
    have he : w.docs.eraseP (fun d => d.user.ID == id) = w.docs :=
      List.eraseP_of_forall_not (fun d hd => by simpa using hno d hd)
    simp [DeleteUserHandler, hr, DeleteOne, hdel, he]
  refine ⟨key g hcl, ?_⟩
  intro g2 r w1 h1 h2
  rw [key g hcl] at h1
  cases h1
  exact ⟨rfl, key g2 h2⟩

/-! ## The claims on sample requests -/

namespace addUsersToDB

theorem insertedDoc_lt {env : Env} {users : List Users} {i : Nat} {d : Doc}
    (h : insertedDoc env users i = some d) : i < users.length := by
  unfold insertedDoc at h
  cases hu : users[i]? with
  | none => simp [hu] at h
  | some u => exact getElem?_lt hu

/-- Witness of C3: one record `ann`, every call succeeding, run to completion. The
call returns nil with one new document and one new payload file; through the
handler, the single-file upload `annJson` leaves exactly that document and the
file `./data/` + hex id. -/
theorem persist_count_and_naming_witness :
    (∃ r, GetMongoDBClient demoEnv connected = .ret r)
    ∧ (∀ i u, [ann][i]? = some u → workerErr demoEnv i u = none)
    ∧ (∀ i j a b, insertedDoc demoEnv [ann] i = some a → insertedDoc demoEnv [ann] j = some b →
        a.oid = b.oid → i = j)
    ∧ (run demoEnv connected [ann] emptyWorld dbSchedule).main = .returned none
    ∧ (∃ newDocs newWrites,
        (run demoEnv connected [ann] emptyWorld dbSchedule).world.docs
          = emptyWorld.docs ++ newDocs
        ∧ (run demoEnv connected [ann] emptyWorld dbSchedule).world.writes
          = emptyWorld.writes ++ newWrites
        ∧ newDocs.length = 1 ∧ newWrites.length = 1)
    ∧ AddUsersHandler.worldOf emptyWorld
        (AddUsersHandler.run demoEnv connected emptyWorld (.ok [annFile]) okSchedule)
      = ⟨[⟨demoId 0, { ann with Password := "$2a$10$pw1" }⟩],
         [("./data/000000000000000000000000", "")]⟩ := by
  have hc : ∃ r, GetMongoDBClient demoEnv connected = .ret r := ⟨_, rfl⟩
  have hok : ∀ i u, [ann][i]? = some u → workerErr demoEnv i u = none := fun _ _ _ => rfl
  have hid : ∀ i j a b, insertedDoc demoEnv [ann] i = some a →
      insertedDoc demoEnv [ann] j = some b → a.oid = b.oid → i = j := by
    intro i j a b hi hj _
    have h1 := insertedDoc_lt hi
    have h2 := insertedDoc_lt hj
    simp only [List.length_singleton] at h1 h2
    omega
  have hm : (run demoEnv connected [ann] emptyWorld dbSchedule).main = .returned none := by
    decide
  obtain ⟨nd, nw, h1, h2, h3, h4, _⟩ :=
    (persist_count_and_naming demoEnv connected [ann] emptyWorld dbSchedule hc hok hid).2.2.2 hm
  exact ⟨hc, hok, hid, hm, ⟨nd, nw, h1, h2, h3, h4⟩, by decide⟩

/-- Witness of C4: after the hashing step of the worker for `ann`, the value
about to be inserted is `ann` with only its password replaced by the hash. -/
theorem secret_hashed_before_insert_witness :
    ∃ u hash, [ann][0]? = some u ∧ demoEnv.GenerateFromPassword 0 u.Password = .ok hash
      ∧ ({ ann with Password := "$2a$10$pw1" } : Users) = { u with Password := hash } :=
  (secret_hashed_before_insert demoEnv connected [ann] emptyWorld [.worker 0]).1 0
    { ann with Password := "$2a$10$pw1" } (by decide)

/-- Witness of C5: on one record with every call succeeding and the schedule run
to completion, the call has returned nil with its worker exited, and nil is
returned iff every worker succeeds; with a file system that refuses the write,
the call has returned the write error, which is the error of a failing worker. -/
theorem fanout_result_witness :
    (∃ r, GetMongoDBClient demoEnv connected = .ret r)
    ∧ (run demoEnv connected [ann] emptyWorld dbSchedule).main = .returned none
    ∧ ((none : GoError) = none ↔ ∀ i u, [ann][i]? = some u → workerErr demoEnv i u = none)
    ∧ (∀ i, (run demoEnv connected [ann] emptyWorld dbSchedule).pc i = .exited)
    ∧ (run diskFull connected [ann] emptyWorld dbFailSchedule).main
        = .returned (some ⟨"no space left on device"⟩)
    ∧ (∃ i u, [ann][i]? = some u
        ∧ workerErr diskFull i u = some ⟨"no space left on device"⟩) := by
  have hc : ∃ r, GetMongoDBClient demoEnv connected = .ret r := ⟨_, rfl⟩
  have hm : (run demoEnv connected [ann] emptyWorld dbSchedule).main = .returned none := by
    decide
  have h := (fanout_result demoEnv connected [ann] emptyWorld dbSchedule hc).1 none hm
  have hm2 : (run diskFull connected [ann] emptyWorld dbFailSchedule).main
      = .returned (some ⟨"no space left on device"⟩) := by decide
  have h2 := (fanout_result diskFull connected [ann] emptyWorld dbFailSchedule ⟨_, rfl⟩).1
    (some ⟨"no space left on device"⟩) hm2
  exact ⟨hc, hm, h.1, h.2.1 rfl, hm2, h2.2.2 _ rfl⟩

/-- Witness of C7 as amended: `bob`, uploaded with `id` "u2" into an empty store,
is found under "u2" with only his password replaced by the hash. -/
theorem round_trip_by_record_id_witness :
    (∃ r, GetMongoDBClient demoEnv connected = .ret r)
    ∧ 0 ∈ (run demoEnv connected [bob] emptyWorld dbSchedule).inserts
    ∧ ∃ hash, demoEnv.GenerateFromPassword 0 bob.Password = .ok hash
      ∧ GetUsersHandler demoEnv connected
          (run demoEnv connected [bob] emptyWorld dbSchedule).world bob.ID
        = .ret ⟨200, .user { bob with Password := hash }⟩ := by
  have hc : ∃ r, GetMongoDBClient demoEnv connected = .ret r := ⟨_, rfl⟩
  have hins : 0 ∈ (run demoEnv connected [bob] emptyWorld dbSchedule).inserts := by decide
  have huniq : ∀ j v, [bob][j]? = some v → v.ID = bob.ID → j = 0 := by
    intro j v hj _
    have := getElem?_lt hj
    simp only [List.length_singleton] at this
    omega
  exact ⟨hc, hins, round_trip_by_record_id demoEnv connected [bob] emptyWorld dbSchedule 0 bob
    hc rfl (fun _ => rfl) rfl hins (fun d hd => by cases hd) huniq⟩

end addUsersToDB

/-- Counterexample to C7 as stated: `ann` is ingested into an empty store (the call
returns nil, her document carries the generated identifier and her payload file
is at `./data/` + hex id), yet `GetUsersHandler` called with that hex identifier
answers 400 "User not found": the lookup filters on the key `id`, the record's
own `ID` field, not on the generated `_id`. -/
theorem get_by_assigned_id_not_found :
    (addUsersToDB.run demoEnv connected [ann] emptyWorld dbSchedule).main = .returned none
    ∧ (addUsersToDB.run demoEnv connected [ann] emptyWorld dbSchedule).world.docs
        = [⟨demoId 0, { ann with Password := "$2a$10$pw1" }⟩]
    ∧ (addUsersToDB.run demoEnv connected [ann] emptyWorld dbSchedule).world.readFile
        ("./data/" ++ (demoId 0).Hex) = some ann.Data
    ∧ GetUsersHandler demoEnv connected
        (addUsersToDB.run demoEnv connected [ann] emptyWorld dbSchedule).world (demoId 0).Hex
      = .ret ⟨400, .error "User not found"⟩ := by
  decide

/-- Witness of C8: deleting "nobody" from a store that holds only `bob` answers
200 "deleted" and leaves the world as it was. -/
theorem delete_nonexistent_witness :
    (∃ r, GetMongoDBClient demoEnv connected = .ret r)
    ∧ demoEnv.DeleteOne = none
    ∧ (∀ d, d ∈ bobWorld.docs → d.user.ID ≠ "nobody")
    ∧ DeleteUserHandler demoEnv connected bobWorld "nobody"
        = .ret (⟨200, .success "deleted"⟩, bobWorld) := by
  have hc : ∃ r, GetMongoDBClient demoEnv connected = .ret r := ⟨_, rfl⟩
  have hno : ∀ d, d ∈ bobWorld.docs → d.user.ID ≠ "nobody" := by decide
  exact ⟨hc, rfl, hno, (delete_nonexistent demoEnv connected bobWorld "nobody" hc rfl hno).1⟩

/-- C9, the code at the failing input: with the store unreachable (`Ping` fails) in
a process that passed its start-up check, the get, list and delete handlers and
a one-file upload all end in process exit with status 1 (`log.Fatal` inside
`GetMongoDBClient`) instead of an HTTP error response; no response is written. -/
theorem ping_failure_terminates_process :
    main.init demoEnv ⟨false, none⟩ = .ret connected
    ∧ GetUsersHandler pingDown connected emptyWorld "u2" = .exit 1
    ∧ GetUsersListHandler pingDown connected emptyWorld = .exit 1
    ∧ DeleteUserHandler pingDown connected emptyWorld "u2" = .exit 1
    ∧ (addUsersToDB.run pingDown connected [ann] emptyWorld dbSchedule).main
        = .halted (.exit 1)
    ∧ (AddUsersHandler.run pingDown connected emptyWorld (.ok [annFile]) okSchedule).main
        = .exited 1 := by
  decide

namespace AddUsersHandler

/-- Witness of C2: a good file and a file that is not JSON. Once nothing can move
any more the handler has answered 400 and `addUsersToDB` was never called. -/
theorem error_path_witness :
    badFile ∈ [annFile, badFile]
    ∧ decodeFile demoEnv badFile = .error ⟨"invalid character"⟩
    ∧ quiescent (run demoEnv connected emptyWorld (.ok [annFile, badFile]) errSchedule) = true
    ∧ (run demoEnv connected emptyWorld (.ok [annFile, badFile]) errSchedule).main
        = .returned badRequest
    ∧ worldOf emptyWorld (run demoEnv connected emptyWorld (.ok [annFile, badFile]) errSchedule)
        = emptyWorld := by
  have hmem : badFile ∈ [annFile, badFile] := by simp
  have hq : quiescent (run demoEnv connected emptyWorld (.ok [annFile, badFile]) errSchedule)
      = true := by decide
  have h := error_path_never_persists demoEnv connected emptyWorld [annFile, badFile] errSchedule badFile
    ⟨"invalid character"⟩ hmem rfl
  exact ⟨hmem, rfl, hq, h.2.2.2.2.1 hq, h.2.1⟩

/-- Counterexample to C10 as stated. First, a fully successful one-file upload run
until nothing can move any more: the handler has answered 200 and the aggregator
goroutine is still at its receive on `queue`, which nobody closes. Second, an
upload of two undecodable files: the handler has answered 400 after receiving
the error of file 0, nothing can move any more, and the goroutine of file 1 is
still blocked sending its error while the waiter is still in `wg.Wait()`. -/
theorem goroutines_leak :
    (quiescent (run demoEnv connected emptyWorld (.ok [annFile]) okSchedule) = true
      ∧ (run demoEnv connected emptyWorld (.ok [annFile]) okSchedule).main = .returned usersAdded
      ∧ (run demoEnv connected emptyWorld (.ok [annFile]) okSchedule).agg = .receiving)
    ∧ (quiescent (run demoEnv connected emptyWorld (.ok [badFile, badFile]) twoErrSchedule) = true
      ∧ (run demoEnv connected emptyWorld (.ok [badFile, badFile]) twoErrSchedule).main
          = .returned badRequest
      ∧ (run demoEnv connected emptyWorld (.ok [badFile, badFile]) twoErrSchedule).pc 1
          = .sendErr (some ⟨"invalid character"⟩)
      ∧ (run demoEnv connected emptyWorld (.ok [badFile, badFile]) twoErrSchedule).waiter
          = .waiting) :=
  ⟨by decide, by decide, by decide, rfl, by decide⟩

/-- Witness of C10 as amended: the successful one-file upload, run until nothing
can move any more, has answered 200 with every goroutine exited except the
aggregator, which is at its receive. -/
theorem goroutines_amended_witness :
    (∃ r, GetMongoDBClient demoEnv connected = .ret r)
    ∧ (run demoEnv connected emptyWorld (.ok [annFile]) okSchedule).agg ≠ .exited
    ∧ (run demoEnv connected emptyWorld (.ok [annFile]) okSchedule).main = .returned usersAdded
    ∧ (∀ i, (run demoEnv connected emptyWorld (.ok [annFile]) okSchedule).pc i = .exited)
    ∧ (run demoEnv connected emptyWorld (.ok [annFile]) okSchedule).waiter = .exited
    ∧ (run demoEnv connected emptyWorld (.ok [annFile]) okSchedule).agg = .receiving := by
  have hc : ∃ r, GetMongoDBClient demoEnv connected = .ret r := ⟨_, rfl⟩
  have hok : ∀ nf, nf ∈ [annFile] → ∃ u, decodeFile demoEnv nf = .ok u := by
    intro nf hnf
    simp only [List.mem_singleton] at hnf
    exact ⟨[ann], by rw [hnf]; rfl⟩
  have h := goroutines_amended demoEnv connected emptyWorld [annFile] okSchedule hc
  have h4 := h.2.2.2.2 hok (fun _ _ _ => rfl) (by decide)
  exact ⟨hc, h.1, h4.1, h4.2.1, h4.2.2.1, h4.2.2.2.1⟩

end AddUsersHandler
